import Mathlib

/-!
Verification development for the nalco price-circular repository
(src/nalco_scraper.py).

Modelling conventions, justified once here:

* Python `datetime.date` values are modelled by their proleptic Gregorian
  ordinal (`datetime.date.toordinal`), a `Nat`.  `toordinal` is a strictly
  monotone bijection from calendar dates onto positive naturals, so date
  comparison, equality and the one-day step of `pandas.date_range(freq="D")`
  transport exactly to `≤`, `=` and `Nat.succ` on ordinals.
* Python `float` arithmetic on prices is modelled by exact rationals `ℚ`.
  Every price manipulated by the script is produced once by a division by
  1000 and then only copied, never recomputed, so no rounding behaviour of
  binary floating point is observable in the properties proved here.
* External collaborators are parameters: `dateutil.parser.parse` (wrapped by
  `parse_date_from_text`) becomes an arbitrary function
  `dp : String → Option Nat` returning the ordinal of the parsed date, and
  PDF documents are given as already-extracted page data (tables and text),
  which is exactly the interface `pdfplumber` presents to the script.
* Python strings are `String`; all scanning is done on `String.data`
  (`List Char`) with structural recursion.  Python compares strings
  lexicographically by code point, which is `lexLtC` below.
-/

/-! ## Calendar arithmetic (mirrors `datetime.date.toordinal` / `fromordinal`) -/

def isLeapYear (y : Nat) : Bool :=
  (y % 4 == 0 && y % 100 != 0) || y % 400 == 0

def daysInMonth (y m : Nat) : Nat :=
  if m = 2 then (if isLeapYear y then 29 else 28)
  else if m = 4 ∨ m = 6 ∨ m = 9 ∨ m = 11 then 30
  else 31

def daysBeforeMonth (y : Nat) : Nat → Nat
  | 0 => 0
  | 1 => 0
  | m + 2 => daysBeforeMonth y (m + 1) + daysInMonth y (m + 1)

/-- Proleptic Gregorian ordinal of a calendar date, as in
`datetime.date.toordinal` (0001-01-01 is ordinal 1). -/
def dateOrdinal (y m d : Nat) : Nat :=
  365 * (y - 1) + (y - 1) / 4 - (y - 1) / 100 + (y - 1) / 400 + daysBeforeMonth y m + d

/-- Inverse of `dateOrdinal`, following the `_ord2ymd` algorithm used by
CPython `datetime.date.fromordinal`. -/
def fromOrdinal (nn : Nat) : Nat × Nat × Nat :=
  let n0 := nn - 1
  let n400 := n0 / 146097
  let r400 := n0 % 146097
  let n100 := r400 / 36524
  let r100 := r400 % 36524
  let n4 := r100 / 1461
  let r4 := r100 % 1461
  let n1 := r4 / 365
  let r1 := r4 % 365
  let year := n400 * 400 + 1 + n100 * 100 + n4 * 4 + n1
  if n1 = 4 ∨ n100 = 4 then (year - 1, 12, 31)
  else
    let month := (r1 + 50) / 32
    if r1 < daysBeforeMonth year month then
      (year, month - 1, r1 - daysBeforeMonth year (month - 1) + 1)
    else (year, month, r1 - daysBeforeMonth year month + 1)

def digitChar (n : Nat) : Char := Char.ofNat (48 + n)

def pad2 (n : Nat) : List Char := [digitChar (n / 10 % 10), digitChar (n % 10)]

def pad4 (n : Nat) : List Char :=
  [digitChar (n / 1000 % 10), digitChar (n / 100 % 10), digitChar (n / 10 % 10), digitChar (n % 10)]

/-- Python `str(date)`, i.e. `date.isoformat()`: `YYYY-MM-DD` (Python dates
never exceed year 9999, so four fixed digits are faithful). -/
def isoStr (ord : Nat) : String :=
  match fromOrdinal ord with
  | (y, m, d) => ⟨pad4 y ++ '-' :: (pad2 m ++ '-' :: pad2 d)⟩

/-! ## Data model

`Event` is the dictionary produced by `row_to_event` / `heuristic_from_snippet`
and consumed by `build_daily_sheet`, `parse_all_pdfs` and `main` (keys
Description, Product Code, Basic Price, Circular Date, Circular Link,
Source PDF). -/

structure Event where
  description : String
  productCode : String
  basicPrice : Option ℚ
  circularDate : Option Nat
  circularLink : String
  sourcePDF : String
deriving DecidableEq, Repr

/-- An event after the normalisation loop at the top of `build_daily_sheet`
(`Circular Date` present, `Source PDF` column not carried over). -/
structure NEvent where
  description : String
  productCode : String
  basicPrice : Option ℚ
  circularDate : Nat
  circularLink : String
deriving DecidableEq, Repr

/-- One row of the `daily` sheet produced by `build_daily_sheet`. -/
structure DailyRow where
  date : Nat
  description : String
  productCode : String
  basicPrice : Option ℚ
  circularDate : Nat
  circularLink : String
deriving DecidableEq, Repr

/-- A pandas `DataFrame` restricted to what the script observes of it: its
column labels and its rows.  `pd.DataFrame([])` has an empty column index. -/
structure Sheet where
  columns : List String
  rows : List DailyRow
deriving DecidableEq, Repr

def dailyColumns : List String :=
  ["Date", "Description", "Product Code", "Basic Price", "Circular Date", "Circular Link"]

/-! ## `build_daily_sheet` (src/nalco_scraper.py lines 348-397) -/

/-- The normalisation loop: drop events without a `Circular Date`, keep the
five daily-relevant fields. -/
def normalizeEvents (events : List Event) : List NEvent :=
  events.filterMap fun e =>
    match e.circularDate with
    | none => none
    | some d =>
      some { description := e.description, productCode := e.productCode,
             basicPrice := e.basicPrice, circularDate := d,
             circularLink := e.circularLink }

/-- Comparison used by `evdf.sort_values("Circular Date")`. -/
def nevLe (a b : NEvent) : Prop := a.circularDate ≤ b.circularDate

instance : DecidableRel nevLe := fun a b => Nat.decLe a.circularDate b.circularDate

instance : IsTotal NEvent nevLe := ⟨fun a b => Nat.le_total a.circularDate b.circularDate⟩

instance : IsTrans NEvent nevLe := ⟨fun _ _ _ h1 h2 => Nat.le_trans h1 h2⟩

def sameKey (a b : NEvent) : Bool :=
  decide (a.circularDate = b.circularDate) && decide (a.productCode = b.productCode)

/-- `drop_duplicates(subset=["Circular Date", "Product Code"], keep="last")`:
keep a row iff no later row shares its key. -/
def dropDupKeepLast : List NEvent → List NEvent
  | [] => []
  | x :: xs => if xs.any (fun y => sameKey x y) then dropDupKeepLast xs else x :: dropDupKeepLast xs

/-- `evdf["Circular Date"].min()` over a non-empty frame. -/
def minCircularDate : List NEvent → Nat
  | [] => 0
  | e :: es => es.foldl (fun m x => min m x.circularDate) e.circularDate

/-- The sorted, de-duplicated event frame `evdf` of `build_daily_sheet`. -/
def evdfOf (events : List Event) : List NEvent :=
  dropDupKeepLast (List.insertionSort nevLe (normalizeEvents events))

/-- The list `[s, s+1, ..., s+n-1]` of consecutive day ordinals. -/
def rangeFrom (s : Nat) : Nat → List Nat
  | 0 => []
  | n + 1 => s :: rangeFrom (s + 1) n

/-- `pd.date_range(start=start, end=stop, freq="D")` as day ordinals
(empty when `stop < start`). -/
def dateRange (start stop : Nat) : List Nat :=
  if start ≤ stop then rangeFrom start (stop - start + 1) else []

def mkRow (d : Nat) (c : NEvent) : DailyRow :=
  { date := d, description := c.description, productCode := c.productCode,
    basicPrice := c.basicPrice, circularDate := c.circularDate,
    circularLink := c.circularLink }

/-- The inner `while` of the daily loop: consume every pending event whose
date is `≤ d`, remembering the last one consumed as `current`. -/
def advance : List NEvent → Option NEvent → Nat → List NEvent × Option NEvent
  | [], cur, _ => ([], cur)
  | e :: rest, cur, d =>
    if e.circularDate ≤ d then advance rest (some e) d else (e :: rest, cur)

/-- The daily loop of `build_daily_sheet`: one pass over the day axis,
emitting a row per day once a current event exists. -/
def walk : List NEvent → Option NEvent → List Nat → List DailyRow
  | _, _, [] => []
  | evs, cur, d :: ds =>
    match advance evs cur d with
    | (evs2, cur2) =>
      (match cur2 with
       | some c => [mkRow d c]
       | none => []) ++ walk evs2 cur2 ds

/-- `pd.DataFrame(rows)`: the fixed six columns when `rows` is non-empty,
an empty column index otherwise. -/
def sheetOfRows (rows : List DailyRow) : Sheet :=
  { columns := if rows.isEmpty then [] else dailyColumns, rows := rows }

/-- Shallow embedding of `build_daily_sheet` (src/nalco_scraper.py 348-397). -/
def build_daily_sheet (events : List Event) (untilD : Nat) : Sheet :=
  if events.isEmpty then { columns := dailyColumns, rows := [] }
  else if (normalizeEvents events).isEmpty then { columns := dailyColumns, rows := [] }
  else
    sheetOfRows (walk (evdfOf events) none (dateRange (minCircularDate (evdfOf events)) untilD))

/-! ## Forward-fill analysis of the daily loop -/

/-- Folding the daily-loop update over a list: the last event with date `≤ d`,
defaulting to `a`. -/
def latestFrom (a : Option NEvent) (l : List NEvent) (d : Nat) : Option NEvent :=
  l.foldl (fun acc e => if e.circularDate ≤ d then some e else acc) a

/-- The last event of `l` whose `circularDate` is `≤ d`, if any. -/
def latestLE (l : List NEvent) (d : Nat) : Option NEvent := latestFrom none l d

def lastOr (a : Option NEvent) : List NEvent → Option NEvent
  | [] => a
  | x :: xs => lastOr (some x) xs

/-- The rows the daily loop emits for one day `d`. -/
def emitRow (E : List NEvent) (d : Nat) : List DailyRow :=
  match latestLE E d with
  | some c => [mkRow d c]
  | none => []

/-- The concatenation of the per-day emissions over a day list. -/
def emitAll (E : List NEvent) : List Nat → List DailyRow
  | [] => []
  | d :: rest => emitRow E d ++ emitAll E rest

lemma emitAll_mem {E : List NEvent} :
    ∀ {days : List Nat} {r : DailyRow},
      r ∈ emitAll E days → ∃ d ∈ days, r ∈ emitRow E d
  | [], _, hr => by simp [emitAll] at hr
  | d :: rest, r, hr => by
    rcases List.mem_append.mp hr with h1 | h2
    · exact ⟨d, List.mem_cons_self d rest, h1⟩
    · rcases emitAll_mem h2 with ⟨d2, hd2, hr2⟩
      exact ⟨d2, List.mem_cons_of_mem d hd2, hr2⟩

lemma latestFrom_of_none (t : Nat) :
    ∀ (l : List NEvent) (a : Option NEvent),
      (∀ x ∈ l, ¬ x.circularDate ≤ t) → latestFrom a l t = a
  | [], _, _ => rfl
  | e :: rest, a, h => by
    have he : ¬ e.circularDate ≤ t := h e (List.mem_cons_self e rest)
    simp only [latestFrom, List.foldl_cons, if_neg he]
    exact latestFrom_of_none t rest a (fun x hx => h x (List.mem_cons_of_mem e hx))

lemma latestFrom_of_all (t : Nat) :
    ∀ (l : List NEvent) (a : Option NEvent),
      (∀ x ∈ l, x.circularDate ≤ t) → latestFrom a l t = lastOr a l
  | [], _, _ => rfl
  | e :: rest, a, h => by
    have he : e.circularDate ≤ t := h e (List.mem_cons_self e rest)
    simp only [latestFrom, List.foldl_cons, if_pos he, lastOr]
    exact latestFrom_of_all t rest (some e) (fun x hx => h x (List.mem_cons_of_mem e hx))

lemma latestFrom_append (a : Option NEvent) (l1 l2 : List NEvent) (t : Nat) :
    latestFrom a (l1 ++ l2) t = latestFrom (latestFrom a l1 t) l2 t := by
  simp [latestFrom, List.foldl_append]

lemma advance_eq (t : Nat) :
    ∀ (l : List NEvent) (a : Option NEvent), List.Pairwise nevLe l →
      advance l a t = (l.dropWhile (fun e => decide (e.circularDate ≤ t)), latestFrom a l t)
  | [], _, _ => rfl
  | e :: rest, a, hp => by
    rcases List.pairwise_cons.mp hp with ⟨he, hrest⟩
    by_cases h : e.circularDate ≤ t
    · simp only [advance, if_pos h, List.dropWhile_cons, decide_eq_true h, if_true]
      rw [advance_eq t rest (some e) hrest]
      have : latestFrom a (e :: rest) t = latestFrom (some e) rest t := by
        simp [latestFrom, List.foldl_cons, if_pos h]
      rw [this]
    · have hz : latestFrom a (e :: rest) t = a := by
        apply latestFrom_of_none
        intro x hx
        rcases List.mem_cons.mp hx with rfl | hx2
        · exact h
        · exact fun hle => h (le_trans (he x hx2) hle)
      simp [advance, if_neg h, List.dropWhile_cons, h, hz]

lemma dropWhile_gt (t : Nat) :
    ∀ (l : List NEvent), List.Pairwise nevLe l →
      ∀ x ∈ l.dropWhile (fun e => decide (e.circularDate ≤ t)), ¬ x.circularDate ≤ t
  | [], _, x, hx => by simp at hx
  | e :: rest, hp, x, hx => by
    rcases List.pairwise_cons.mp hp with ⟨he, hrest⟩
    by_cases h : e.circularDate ≤ t
    · rw [List.dropWhile_cons, if_pos (by simpa using h)] at hx
      exact dropWhile_gt t rest hrest x hx
    · rw [List.dropWhile_cons, if_neg (by simpa using h)] at hx
      rcases List.mem_cons.mp hx with rfl | hx2
      · exact h
      · exact fun hle => h (le_trans (he x hx2) hle)

lemma takeWhile_le (t : Nat) (l : List NEvent) :
    ∀ x ∈ l.takeWhile (fun e => decide (e.circularDate ≤ t)), x.circularDate ≤ t := by
  intro x hx
  simpa using List.mem_takeWhile_imp hx

/-- Master lemma: on any window of consecutive days, the daily loop emits for
each day exactly the row of the last event dated `≤` that day (relative to a
fixed full sorted event list `E`), provided the running state refines `E`. -/
lemma walk_eq_emit (E : List NEvent) :
    ∀ (n s : Nat) (pending : List NEvent) (cur : Option NEvent),
      List.Pairwise nevLe pending →
      (∀ d, s ≤ d → latestFrom cur pending d = latestLE E d) →
      walk pending cur (rangeFrom s n) = emitAll E (rangeFrom s n) := by
  intro n
  induction n with
  | zero => intro s pending cur _ _; rfl
  | succ n ih =>
    intro s pending cur hsort hinv
    have hsplit := List.takeWhile_append_dropWhile
      (p := fun e : NEvent => decide (e.circularDate ≤ s)) (l := pending)
    have htake := takeWhile_le s pending
    have hdrop := dropWhile_gt s pending hsort
    have hcur2 : latestFrom cur pending s = latestLE E s := hinv s le_rfl
    have hlast : latestFrom cur pending s
        = lastOr cur (pending.takeWhile (fun e => decide (e.circularDate ≤ s))) := by
      conv_lhs => rw [← hsplit]
      rw [latestFrom_append, latestFrom_of_all s _ cur htake]
      exact latestFrom_of_none s _ _ hdrop
    have hadv := advance_eq s pending cur hsort
    have hsort2 : List.Pairwise nevLe
        (pending.dropWhile (fun e => decide (e.circularDate ≤ s))) :=
      List.Pairwise.sublist (List.dropWhile_sublist _) hsort
    have hinv2 : ∀ d, s + 1 ≤ d →
        latestFrom (latestFrom cur pending s)
          (pending.dropWhile (fun e => decide (e.circularDate ≤ s))) d = latestLE E d := by
      intro d hd
      have hsd : s ≤ d := le_trans (Nat.le_succ s) hd
      have h1 : latestFrom cur pending d = latestLE E d := hinv d hsd
      conv_rhs => rw [← h1]
      conv_rhs => rw [← hsplit, latestFrom_append]
      congr 1
      rw [latestFrom_of_all d _ cur (fun x hx => le_trans (htake x hx) hsd), hlast]
    show walk pending cur (s :: rangeFrom (s + 1) n) = emitAll E (s :: rangeFrom (s + 1) n)
    simp only [walk, hadv, emitAll]
    rw [ih (s + 1) _ _ hsort2 hinv2, hcur2]
    rfl

lemma rangeFrom_length : ∀ (n s : Nat), (rangeFrom s n).length = n
  | 0, _ => rfl
  | n + 1, s => by simp [rangeFrom, rangeFrom_length n (s + 1)]

lemma rangeFrom_mem : ∀ (n s x : Nat), x ∈ rangeFrom s n → s ≤ x ∧ x < s + n
  | 0, _, _, hx => by simp [rangeFrom] at hx
  | n + 1, s, x, hx => by
    rcases List.mem_cons.mp hx with rfl | hx2
    · omega
    · have := rangeFrom_mem n (s + 1) x hx2
      omega

lemma latestFrom_some (t : Nat) :
    ∀ (l : List NEvent) (e : NEvent), ∃ c, latestFrom (some e) l t = some c
  | [], e => ⟨e, rfl⟩
  | x :: xs, e => by
    by_cases h : x.circularDate ≤ t
    · simpa [latestFrom, List.foldl_cons, if_pos h] using latestFrom_some t xs x
    · simpa [latestFrom, List.foldl_cons, if_neg h] using latestFrom_some t xs e

lemma latestFrom_isSome (t : Nat) :
    ∀ (l : List NEvent) (a : Option NEvent),
      (∃ x ∈ l, x.circularDate ≤ t) → ∃ c, latestFrom a l t = some c
  | [], _, h => by simp at h
  | e :: rest, a, h => by
    by_cases he : e.circularDate ≤ t
    · simpa [latestFrom, List.foldl_cons, if_pos he] using latestFrom_some t rest e
    · rcases h with ⟨x, hx, hxt⟩
      rcases List.mem_cons.mp hx with rfl | hx2
      · exact absurd hxt he
      · simpa [latestFrom, List.foldl_cons, if_neg he] using
          latestFrom_isSome t rest a ⟨x, hx2, hxt⟩

lemma emitAll_dates (E : List NEvent) :
    ∀ (days : List Nat), (∀ d ∈ days, ∃ c, latestLE E d = some c) →
      (emitAll E days).map DailyRow.date = days
  | [], _ => rfl
  | d :: rest, h => by
    rcases h d (List.mem_cons_self d rest) with ⟨c, hc⟩
    simp only [emitAll, List.map_append]
    rw [emitAll_dates E rest (fun x hx => h x (List.mem_cons_of_mem d hx))]
    simp [emitRow, hc, mkRow]

lemma latestFrom_max (t : Nat) :
    ∀ (l : List NEvent) (a : Option NEvent) (c : NEvent),
      List.Pairwise nevLe l → latestFrom a l t = some c →
      (a = some c ∧ ∀ e ∈ l, ¬ e.circularDate ≤ t) ∨
      (c ∈ l ∧ c.circularDate ≤ t ∧
        ∀ e ∈ l, e.circularDate ≤ t → e.circularDate ≤ c.circularDate)
  | [], a, c, _, h => by
    left
    refine ⟨h, ?_⟩
    intro e he
    simp at he
  | x :: xs, a, c, hp, h => by
    rcases List.pairwise_cons.mp hp with ⟨hx, hxs⟩
    by_cases hxt : x.circularDate ≤ t
    · have h2 : latestFrom (some x) xs t = some c := by
        simpa [latestFrom, List.foldl_cons, if_pos hxt] using h
      rcases latestFrom_max t xs (some x) c hxs h2 with ⟨heq, hall⟩ | ⟨hc1, hc2, hc3⟩
      · right
        have hcx : c = x := by injection heq.symm
        subst hcx
        refine ⟨List.mem_cons_self c xs, hxt, ?_⟩
        intro e he het
        rcases List.mem_cons.mp he with rfl | he2
        · exact le_rfl
        · exact absurd het (hall e he2)
      · right
        refine ⟨List.mem_cons_of_mem x hc1, hc2, ?_⟩
        intro e he het
        rcases List.mem_cons.mp he with rfl | he2
        · exact le_trans (hx c hc1) le_rfl
        · exact hc3 e he2 het
    · have h2 : latestFrom a xs t = some c := by
        simpa [latestFrom, List.foldl_cons, if_neg hxt] using h
      rcases latestFrom_max t xs a c hxs h2 with ⟨heq, hall⟩ | ⟨hc1, hc2, hc3⟩
      · left
        refine ⟨heq, ?_⟩
        intro e he
        rcases List.mem_cons.mp he with rfl | he2
        · exact hxt
        · exact hall e he2
      · right
        refine ⟨List.mem_cons_of_mem x hc1, hc2, ?_⟩
        intro e he het
        rcases List.mem_cons.mp he with rfl | he2
        · exact absurd het hxt
        · exact hc3 e he2 het

/-! ## Minimum and de-duplication facts -/

lemma foldlMin_le_init :
    ∀ (l : List NEvent) (a : Nat),
      l.foldl (fun m x => min m x.circularDate) a ≤ a
  | [], _ => le_rfl
  | e :: rest, a => by
    simp only [List.foldl_cons]
    exact le_trans (foldlMin_le_init rest _) (Nat.min_le_left _ _)

lemma foldlMin_le_mem :
    ∀ (l : List NEvent) (a : Nat) (e : NEvent), e ∈ l →
      l.foldl (fun m x => min m x.circularDate) a ≤ e.circularDate
  | [], _, _, he => by simp at he
  | x :: xs, a, e, he => by
    simp only [List.foldl_cons]
    rcases List.mem_cons.mp he with rfl | he2
    · exact le_trans (foldlMin_le_init xs _) (Nat.min_le_right _ _)
    · exact foldlMin_le_mem xs _ e he2

lemma foldlMin_attained :
    ∀ (l : List NEvent) (a : Nat),
      l.foldl (fun m x => min m x.circularDate) a = a ∨
      ∃ e ∈ l, l.foldl (fun m x => min m x.circularDate) a = e.circularDate
  | [], _ => Or.inl rfl
  | x :: xs, a => by
    simp only [List.foldl_cons]
    rcases foldlMin_attained xs (min a x.circularDate) with h | ⟨e, he, hee⟩
    · rcases Nat.le_total a x.circularDate with hle | hle
      · left
        rw [h]
        exact Nat.min_eq_left hle
      · right
        exact ⟨x, List.mem_cons_self x xs, by rw [h]; exact Nat.min_eq_right hle⟩
    · exact Or.inr ⟨e, List.mem_cons_of_mem x he, hee⟩

lemma minCD_le {l : List NEvent} : ∀ e ∈ l, minCircularDate l ≤ e.circularDate := by
  intro e he
  cases l with
  | nil => simp at he
  | cons x xs =>
    rcases List.mem_cons.mp he with rfl | he2
    · exact foldlMin_le_init xs _
    · exact foldlMin_le_mem xs _ e he2

lemma minCD_attained {l : List NEvent} (h : l ≠ []) :
    ∃ e ∈ l, e.circularDate = minCircularDate l := by
  cases l with
  | nil => exact absurd rfl h
  | cons x xs =>
    rcases foldlMin_attained xs x.circularDate with h1 | ⟨e, he, hee⟩
    · exact ⟨x, List.mem_cons_self x xs, h1.symm⟩
    · exact ⟨e, List.mem_cons_of_mem x he, hee.symm⟩

lemma sameKey_date {a b : NEvent} (h : sameKey a b = true) :
    a.circularDate = b.circularDate := by
  simp only [sameKey, Bool.and_eq_true, decide_eq_true_eq] at h
  exact h.1

lemma sameKey_refl (a : NEvent) : sameKey a a = true := by
  simp [sameKey]

lemma sameKey_trans {a b c : NEvent} (h1 : sameKey a b = true) (h2 : sameKey b c = true) :
    sameKey a c = true := by
  simp only [sameKey, Bool.and_eq_true, decide_eq_true_eq] at *
  exact ⟨h1.1.trans h2.1, h1.2.trans h2.2⟩

lemma dropDup_sublist : ∀ l : List NEvent, (dropDupKeepLast l).Sublist l
  | [] => List.Sublist.refl []
  | x :: xs => by
    by_cases h : xs.any (fun y => sameKey x y)
    · simpa [dropDupKeepLast, h] using (dropDup_sublist xs).cons x
    · simpa [dropDupKeepLast, h] using (dropDup_sublist xs).cons₂ x

lemma dropDup_nonempty : ∀ l : List NEvent, l ≠ [] → dropDupKeepLast l ≠ []
  | [], h => absurd rfl h
  | x :: xs, _ => by
    by_cases h : xs.any (fun y => sameKey x y)
    · have hxs : xs ≠ [] := by
        intro hx
        rw [hx] at h
        simp at h
      simpa [dropDupKeepLast, h] using dropDup_nonempty xs hxs
    · simp [dropDupKeepLast, h]

lemma dropDup_survivor : ∀ (l : List NEvent) (x : NEvent), x ∈ l →
    ∃ y ∈ dropDupKeepLast l, sameKey x y = true
  | [], x, hx => by simp at hx
  | a :: xs, x, hx => by
    by_cases h : xs.any (fun y => sameKey a y)
    · rcases List.mem_cons.mp hx with rfl | hx2
      · rcases List.any_eq_true.mp h with ⟨y, hy, hky⟩
        rcases dropDup_survivor xs y hy with ⟨z, hz, hkz⟩
        exact ⟨z, by simpa [dropDupKeepLast, h] using hz,
          sameKey_trans (by simpa using hky) hkz⟩
      · rcases dropDup_survivor xs x hx2 with ⟨z, hz, hkz⟩
        exact ⟨z, by simpa [dropDupKeepLast, h] using hz, hkz⟩
    · rcases List.mem_cons.mp hx with rfl | hx2
      · exact ⟨x, by simp [dropDupKeepLast, h], sameKey_refl x⟩
      · rcases dropDup_survivor xs x hx2 with ⟨z, hz, hkz⟩
        refine ⟨z, ?_, hkz⟩
        simp only [dropDupKeepLast, h, if_neg]
        exact List.mem_cons_of_mem a hz

lemma evdf_sorted (events : List Event) : List.Pairwise nevLe (evdfOf events) :=
  List.Pairwise.sublist (dropDup_sublist _)
    (List.sorted_insertionSort nevLe (normalizeEvents events))

lemma evdf_subset {events : List Event} {e : NEvent} (h : e ∈ evdfOf events) :
    e ∈ normalizeEvents events := by
  have h2 := (dropDup_sublist _).subset h
  simpa using h2

lemma evdf_nonempty {events : List Event} (h : normalizeEvents events ≠ []) :
    evdfOf events ≠ [] := by
  apply dropDup_nonempty
  intro hs
  apply h
  have := List.length_insertionSort nevLe (normalizeEvents events)
  rw [hs] at this
  exact List.length_eq_zero.mp this.symm

lemma evdf_survivor {events : List Event} {e : NEvent} (h : e ∈ normalizeEvents events) :
    ∃ y ∈ evdfOf events, sameKey e y = true :=
  dropDup_survivor _ e ((List.mem_insertionSort nevLe).mpr h)

lemma minCD_evdf (events : List Event) (h : normalizeEvents events ≠ []) :
    minCircularDate (evdfOf events) = minCircularDate (normalizeEvents events) := by
  apply Nat.le_antisymm
  · rcases minCD_attained h with ⟨e, he, hee⟩
    rcases evdf_survivor he with ⟨y, hy, hky⟩
    calc minCircularDate (evdfOf events) ≤ y.circularDate := minCD_le y hy
      _ = e.circularDate := (sameKey_date hky).symm
      _ = minCircularDate (normalizeEvents events) := hee
  · rcases minCD_attained (evdf_nonempty h) with ⟨y, hy, hyy⟩
    calc minCircularDate (normalizeEvents events) ≤ y.circularDate :=
          minCD_le y (evdf_subset hy)
      _ = minCircularDate (evdfOf events) := hyy

/-! ## The rows of `build_daily_sheet` in closed form -/

lemma build_rows_eq (events : List Event) (untilD : Nat)
    (h1 : normalizeEvents events ≠ [])
    (h2 : minCircularDate (normalizeEvents events) ≤ untilD) :
    (build_daily_sheet events untilD).rows
      = emitAll (evdfOf events)
          (rangeFrom (minCircularDate (normalizeEvents events))
            (untilD - minCircularDate (normalizeEvents events) + 1)) := by
  have hev : events ≠ [] := by
    intro he
    apply h1
    rw [he]
    rfl
  have hne : events.isEmpty = false := by
    cases events with
    | nil => exact absurd rfl hev
    | cons a l => rfl
  have hne2 : (normalizeEvents events).isEmpty = false := by
    cases hh : normalizeEvents events with
    | nil => exact absurd hh h1
    | cons a l => rfl
  have hmin := minCD_evdf events h1
  have h2e : minCircularDate (evdfOf events) ≤ untilD := by rw [hmin]; exact h2
  simp only [build_daily_sheet, hne, Bool.false_eq_true, if_false, hne2, sheetOfRows]
  rw [← hmin, dateRange, if_pos h2e]
  exact walk_eq_emit (evdfOf events) _ _ _ none (evdf_sorted events) (fun d _ => rfl)

lemma rangeFrom_pairwise : ∀ (n s : Nat), List.Pairwise (fun a b : Nat => a < b) (rangeFrom s n)
  | 0, _ => List.Pairwise.nil
  | n + 1, s => by
    refine List.pairwise_cons.mpr ⟨?_, rangeFrom_pairwise n (s + 1)⟩
    intro x hx
    have := rangeFrom_mem n (s + 1) x hx
    omega

lemma pairwise_emitAll (E : List NEvent) (hs : List.Pairwise nevLe E) :
    ∀ (days : List Nat), List.Pairwise (fun a b : Nat => a < b) days →
      List.Pairwise (fun a b : DailyRow => a.date < b.date ∧ a.circularDate ≤ b.circularDate)
        (emitAll E days)
  | [], _ => List.Pairwise.nil
  | d :: rest, hp => by
    rcases List.pairwise_cons.mp hp with ⟨hd, hrest⟩
    have ih := pairwise_emitAll E hs rest hrest
    show List.Pairwise _ (emitRow E d ++ emitAll E rest)
    apply List.pairwise_append.mpr
    refine ⟨?_, ih, ?_⟩
    · cases hc : latestLE E d with
      | none => simp [emitRow, hc]
      | some c => simp [emitRow, hc]
    · intro r1 hr1 r2 hr2
      rcases emitAll_mem hr2 with ⟨d2, hd2, hr2e⟩
      cases hc1 : latestLE E d with
      | none => simp [emitRow, hc1] at hr1
      | some c1 =>
        cases hc2 : latestLE E d2 with
        | none => simp [emitRow, hc2] at hr2e
        | some c2 =>
          simp only [emitRow, hc1, List.mem_singleton] at hr1
          simp only [emitRow, hc2, List.mem_singleton] at hr2e
          subst hr1
          subst hr2e
          have hdd : d < d2 := hd d2 hd2
          rcases latestFrom_max d E none c1 hs hc1 with ⟨h0, _⟩ | ⟨hm1, hle1, _⟩
          · cases h0
          rcases latestFrom_max d2 E none c2 hs hc2 with ⟨h0, _⟩ | ⟨_, _, hmax2⟩
          · cases h0
          exact ⟨hdd, hmax2 c1 hm1 (le_trans hle1 (le_of_lt hdd))⟩

/-- C1: for every event list with at least one dated event and every end date
at or after the earliest circular date, every daily row for day `x` carries
exactly the fields of the event with the greatest circular date `≤ x`, no row
carries an event dated after its own date, and the circular-date column is
monotonically non-decreasing as the date increases. -/
theorem C1_forward_fill_correctness :
    ∀ (events : List Event) (untilD : Nat),
      normalizeEvents events ≠ [] →
      minCircularDate (normalizeEvents events) ≤ untilD →
      (∀ r ∈ (build_daily_sheet events untilD).rows,
          (∃ e ∈ normalizeEvents events,
              mkRow r.date e = r ∧ e.circularDate ≤ r.date ∧
              ∀ e2 ∈ normalizeEvents events, e2.circularDate ≤ r.date →
                e2.circularDate ≤ e.circularDate) ∧
          r.circularDate ≤ r.date) ∧
      List.Pairwise (fun a b : DailyRow => a.date < b.date ∧ a.circularDate ≤ b.circularDate)
        (build_daily_sheet events untilD).rows := by
  intro events untilD h1 h2
  have hrows := build_rows_eq events untilD h1 h2
  constructor
  · intro r hr
    rw [hrows] at hr
    rcases emitAll_mem hr with ⟨d, _, hre⟩
    cases hc : latestLE (evdfOf events) d with
    | none => simp [emitRow, hc] at hre
    | some c =>
      simp only [emitRow, hc, List.mem_singleton] at hre
      subst hre
      rcases latestFrom_max d (evdfOf events) none c (evdf_sorted events) hc with
        ⟨h0, _⟩ | ⟨hm, hle, hmax⟩
      · cases h0
      have hdate : (mkRow d c).date = d := rfl
      constructor
      · refine ⟨c, evdf_subset hm, rfl, ?_, ?_⟩
        · rw [hdate]
          exact hle
        · intro e2 he2 he2le
          rcases evdf_survivor he2 with ⟨y, hy, hky⟩
          rw [hdate] at he2le
          have hy2 := hmax y hy (by rw [← sameKey_date hky]; exact he2le)
          rw [sameKey_date hky]
          exact hy2
      · show c.circularDate ≤ d
        exact hle
  · rw [hrows]
    exact pairwise_emitAll _ (evdf_sorted events) _ (rangeFrom_pairwise _ _)

def scenarioPrice1 : ℚ := ((268250 : ℕ) : ℚ) / 1000

def scenarioPrice2 : ℚ := ((270100 : ℕ) : ℚ) / 1000

/-- The two circular events of the concrete scenario in the spec
(2025-08-07 at 268.250 and 2025-08-12 at 270.100). -/
def scenarioEvents : List Event :=
  [{ description := "ALUMINIUM INGOT", productCode := "IE07",
     basicPrice := some scenarioPrice1, circularDate := some (dateOrdinal 2025 8 7),
     circularLink := "", sourcePDF := "a.pdf" },
   { description := "ALUMINIUM INGOT", productCode := "IE07",
     basicPrice := some scenarioPrice2, circularDate := some (dateOrdinal 2025 8 12),
     circularLink := "", sourcePDF := "b.pdf" }]

/-- C2: for every event list whose events are all dated and every end date at
or after the earliest circular date, the daily sheet has exactly one row per
calendar day from the earliest circular date to the end date, with no gaps;
in particular the concrete two-event scenario up to 2025-08-14 yields eight
rows with prices 268.250 through 2025-08-11 and 270.100 from 2025-08-12 on. -/
theorem C2_daily_density :
    (∀ (events : List Event) (untilD : Nat),
        normalizeEvents events ≠ [] →
        minCircularDate (normalizeEvents events) ≤ untilD →
        (build_daily_sheet events untilD).rows.map DailyRow.date
            = rangeFrom (minCircularDate (normalizeEvents events))
                (untilD - minCircularDate (normalizeEvents events) + 1) ∧
        (build_daily_sheet events untilD).rows.length
            = untilD - minCircularDate (normalizeEvents events) + 1) ∧
    (build_daily_sheet scenarioEvents (dateOrdinal 2025 8 14)).rows.map
        (fun r => (r.date, r.basicPrice))
      = [(dateOrdinal 2025 8 7, some scenarioPrice1), (dateOrdinal 2025 8 8, some scenarioPrice1),
         (dateOrdinal 2025 8 9, some scenarioPrice1), (dateOrdinal 2025 8 10, some scenarioPrice1),
         (dateOrdinal 2025 8 11, some scenarioPrice1), (dateOrdinal 2025 8 12, some scenarioPrice2),
         (dateOrdinal 2025 8 13, some scenarioPrice2), (dateOrdinal 2025 8 14, some scenarioPrice2)] := by
  constructor
  · intro events untilD h1 h2
    have hrows := build_rows_eq events untilD h1 h2
    have hall : ∀ d ∈ rangeFrom (minCircularDate (normalizeEvents events))
        (untilD - minCircularDate (normalizeEvents events) + 1),
        ∃ c, latestLE (evdfOf events) d = some c := by
      intro d hd
      have hdge := (rangeFrom_mem _ _ _ hd).1
      rcases minCD_attained (evdf_nonempty h1) with ⟨y, hy, hyy⟩
      apply latestFrom_isSome
      refine ⟨y, hy, ?_⟩
      rw [hyy, minCD_evdf events h1]
      exact hdge
    have h3 : (build_daily_sheet events untilD).rows.map DailyRow.date
        = rangeFrom (minCircularDate (normalizeEvents events))
            (untilD - minCircularDate (normalizeEvents events) + 1) := by
      rw [hrows]
      exact emitAll_dates _ _ hall
    refine ⟨h3, ?_⟩
    have := congrArg List.length h3
    simpa [List.length_map, rangeFrom_length] using this
  · rfl

/-- Witness for `C1_forward_fill_correctness` at the concrete scenario. -/
theorem C1_forward_fill_correctness_witness :
    List.Pairwise (fun a b : DailyRow => a.date < b.date ∧ a.circularDate ≤ b.circularDate)
      (build_daily_sheet scenarioEvents (dateOrdinal 2025 8 14)).rows :=
  (C1_forward_fill_correctness scenarioEvents (dateOrdinal 2025 8 14)
    (by decide) (by decide)).2

/-- Witness for `C2_daily_density` at the concrete scenario. -/
theorem C2_daily_density_witness :
    (build_daily_sheet scenarioEvents (dateOrdinal 2025 8 14)).rows.length
      = dateOrdinal 2025 8 14 - minCircularDate (normalizeEvents scenarioEvents) + 1 :=
  (C2_daily_density.1 scenarioEvents (dateOrdinal 2025 8 14) (by decide) (by decide)).2

/-! ## C10: undated events are dropped, empty result keeps the fixed columns -/

lemma normalize_filter (events : List Event) :
    normalizeEvents (events.filter (fun e => e.circularDate.isSome)) = normalizeEvents events := by
  induction events with
  | nil => rfl
  | cons e rest ih =>
    cases h : e.circularDate with
    | none =>
      simp only [normalizeEvents, List.filter_cons, List.filterMap_cons, h] at ih ⊢
      simpa [h] using ih
    | some d =>
      simp only [normalizeEvents, List.filter_cons, List.filterMap_cons, h] at ih ⊢
      simpa [h] using ih

lemma normalize_nil_iff (events : List Event) :
    normalizeEvents events = [] ↔ ∀ e ∈ events, e.circularDate = none := by
  induction events with
  | nil => simp [normalizeEvents]
  | cons e rest ih =>
    cases h : e.circularDate with
    | none =>
      simp only [normalizeEvents, List.filterMap_cons, h]
      rw [show (List.filterMap _ rest : List NEvent) = normalizeEvents rest from rfl, ih]
      constructor
      · intro hall e2 he2
        rcases List.mem_cons.mp he2 with rfl | he3
        · exact h
        · exact hall e2 he3
      · intro hall e2 he2
        exact hall e2 (List.mem_cons_of_mem e he2)
    | some d =>
      simp only [normalizeEvents, List.filterMap_cons, h]
      constructor
      · intro hc
        exact absurd hc (List.cons_ne_nil _ _)
      · intro hall
        have := hall e (List.mem_cons_self e rest)
        rw [h] at this
        exact absurd this (Option.some_ne_none d)

/-- C10: `build_daily_sheet` silently ignores events without a circular date,
and when no event is dated (including the empty input list) it returns an
empty daily sheet that still carries the fixed six-column header. -/
theorem C10_undated_events_dropped :
    ∀ (events : List Event) (untilD : Nat),
      build_daily_sheet events untilD
          = build_daily_sheet (events.filter (fun e => e.circularDate.isSome)) untilD ∧
      ((∀ e ∈ events, e.circularDate = none) →
        build_daily_sheet events untilD = { columns := dailyColumns, rows := [] }) := by
  intro events untilD
  constructor
  · by_cases hnil : events = []
    · subst hnil
      rfl
    have h1 : events.isEmpty = false := by
      cases events with
      | nil => exact absurd rfl hnil
      | cons a l => rfl
    by_cases hnorm : normalizeEvents events = []
    · have hfil : events.filter (fun e => e.circularDate.isSome) = [] := by
        rw [List.filter_eq_nil_iff]
        intro e he
        have := (normalize_nil_iff events).mp hnorm e he
        simp [this]
      rw [hfil]
      simp [build_daily_sheet, h1, hnorm]
    · have hfilne : events.filter (fun e => e.circularDate.isSome) ≠ [] := by
        intro hf
        apply hnorm
        rw [← normalize_filter events, hf]
        rfl
      have h2 : (events.filter (fun e => e.circularDate.isSome)).isEmpty = false := by
        cases hh : events.filter (fun e => e.circularDate.isSome) with
        | nil => exact absurd hh hfilne
        | cons a l => rfl
      simp only [build_daily_sheet, h1, h2, evdfOf, normalize_filter]
  · intro hall
    have hnorm : normalizeEvents events = [] := (normalize_nil_iff events).mpr hall
    cases events with
    | nil => rfl
    | cons a l => simp [build_daily_sheet, hnorm]

def undatedEvent : Event :=
  { description := "x", productCode := "", basicPrice := none, circularDate := none,
    circularLink := "", sourcePDF := "" }

/-- Witness for `C10_undated_events_dropped` at a concrete undated event. -/
theorem C10_undated_events_dropped_witness :
    build_daily_sheet [undatedEvent] 5 = { columns := dailyColumns, rows := [] } :=
  (C10_undated_events_dropped [undatedEvent] 5).2 (by decide)

/-! ## C7: ordering of the persisted daily sheet (`save_to_excel`, 427-431) -/

def daLe (a b : DailyRow) : Prop := a.date ≤ b.date

instance : DecidableRel daLe := fun a b => Nat.decLe a.date b.date

instance : IsTotal DailyRow daLe := ⟨fun a b => Nat.le_total a.date b.date⟩

instance : IsTrans DailyRow daLe := ⟨fun _ _ _ h1 h2 => Nat.le_trans h1 h2⟩

/-- The reordering `save_to_excel` applies to the non-empty daily frame before
writing: `daily_df_sorted = daily_df_sorted.sort_values("Date")`, which is an
ascending sort (no `ascending=False` in the call). -/
def save_daily_order (daily : List DailyRow) : List DailyRow :=
  List.insertionSort daLe daily

/-- C7 (amended): the rows written to the persisted daily table are the daily
rows ordered ascending by date (oldest first), not descending. -/
theorem C7_persist_ascending :
    ∀ daily : List DailyRow,
      List.Pairwise daLe (save_daily_order daily) ∧ (save_daily_order daily).Perm daily :=
  fun daily => ⟨List.sorted_insertionSort daLe daily, List.perm_insertionSort daLe daily⟩

def cexRow10 : DailyRow :=
  { date := 10, description := "", productCode := "", basicPrice := none,
    circularDate := 10, circularLink := "" }

def cexRow11 : DailyRow :=
  { date := 11, description := "", productCode := "", basicPrice := none,
    circularDate := 11, circularLink := "" }

/-- C7 counterexample: on a two-day daily sheet the persisted order is
ascending `[10, 11]`, so it is not descending by date as claimed. -/
theorem C7_persist_descending_counterexample :
    (save_daily_order [cexRow10, cexRow11]).map DailyRow.date = [10, 11] ∧
    ¬ List.Pairwise (fun a b : DailyRow => b.date ≤ a.date)
        (save_daily_order [cexRow10, cexRow11]) := by
  constructor
  · rfl
  · intro h
    have hs : save_daily_order [cexRow10, cexRow11] = [cexRow10, cexRow11] := rfl
    rw [hs] at h
    have h2 : cexRow11.date ≤ cexRow10.date :=
      List.rel_of_pairwise_cons h (List.mem_cons_self _ _)
    simp [cexRow10, cexRow11] at h2

/-! ## Python string comparison (lexicographic by code point) -/

def lexLtC : List Char → List Char → Bool
  | [], [] => false
  | [], _ :: _ => true
  | _ :: _, [] => false
  | a :: as, b :: bs =>
    decide (a.toNat < b.toNat) || (decide (a.toNat = b.toNat) && lexLtC as bs)

/-- Non-strict counterpart of `lexLtC` (total order duality). -/
def lexLeC (a b : List Char) : Bool := !(lexLtC b a)

lemma char_eq_of_toNat {a b : Char} (h : a.toNat = b.toNat) : a = b := by
  apply Char.eq_of_val_eq
  exact UInt32.toNat.inj h

lemma lexLtC_irrefl : ∀ l : List Char, lexLtC l l = false
  | [] => rfl
  | a :: as => by simp [lexLtC, lexLtC_irrefl as]

lemma lexLtC_connex : ∀ a b : List Char, lexLtC a b = false → lexLtC b a = false → a = b
  | [], [], _, _ => rfl
  | [], _ :: _, h1, _ => by simp [lexLtC] at h1
  | _ :: _, [], _, h2 => by simp [lexLtC] at h2
  | a :: as, b :: bs, h1, h2 => by
    simp only [lexLtC, Bool.or_eq_false_iff, Bool.and_eq_false_iff,
      decide_eq_false_iff_not] at h1 h2
    have hab : a.toNat = b.toNat := by omega
    have ha : a = b := char_eq_of_toNat hab
    subst ha
    rcases h1.2 with h1b | h1b
    · simp at h1b
    rcases h2.2 with h2b | h2b
    · simp at h2b
    rw [lexLtC_connex as bs h1b h2b]

lemma lexLtC_asymm : ∀ a b : List Char, lexLtC a b = true → lexLtC b a = false
  | [], [], h => by simp [lexLtC] at h
  | [], _ :: _, _ => rfl
  | _ :: _, [], h => by simp [lexLtC] at h
  | a :: as, b :: bs, h => by
    simp only [lexLtC, Bool.or_eq_true, Bool.and_eq_true, decide_eq_true_eq] at h
    simp only [lexLtC, Bool.or_eq_false_iff, Bool.and_eq_false_iff,
      decide_eq_false_iff_not]
    rcases h with h | ⟨heq, hlt⟩
    · constructor
      · omega
      · left
        omega
    · constructor
      · omega
      · right
        exact lexLtC_asymm as bs hlt

lemma lexLtC_trans : ∀ a b c : List Char,
    lexLtC a b = true → lexLtC b c = true → lexLtC a c = true
  | [], _, _ :: _, _, _ => rfl
  | [], _ :: _, [], _, h2 => by simp [lexLtC] at h2
  | [], [], _, h1, _ => by simp [lexLtC] at h1
  | _ :: _, [], _, h1, _ => by simp [lexLtC] at h1
  | _ :: _, _ :: _, [], _, h2 => by simp [lexLtC] at h2
  | a :: as, b :: bs, c :: cs, h1, h2 => by
    simp only [lexLtC, Bool.or_eq_true, Bool.and_eq_true, decide_eq_true_eq] at h1 h2 ⊢
    rcases h1 with h1 | ⟨h1e, h1t⟩ <;> rcases h2 with h2 | ⟨h2e, h2t⟩
    · left; omega
    · left; omega
    · left; omega
    · right
      exact ⟨by omega, lexLtC_trans as bs cs h1t h2t⟩

lemma lexLeC_refl (a : List Char) : lexLeC a a = true := by
  simp [lexLeC, lexLtC_irrefl]

lemma lexLeC_of_not_lt {a b : List Char} (h : lexLtC a b = false) : lexLeC b a = true := by
  simp [lexLeC, h]

lemma lexLeC_total (a b : List Char) : lexLeC a b = true ∨ lexLeC b a = true := by
  by_cases h : lexLtC b a = true
  · right
    simp [lexLeC, lexLtC_asymm b a h]
  · left
    simp only [lexLeC, Bool.not_eq_true']
    exact Bool.not_eq_true _ ▸ (by simpa using h)

lemma lexLtC_cases (a b : List Char) :
    lexLtC a b = true ∨ lexLtC b a = true ∨ a = b := by
  cases h1 : lexLtC a b
  · cases h2 : lexLtC b a
    · exact Or.inr (Or.inr (lexLtC_connex a b h1 h2))
    · exact Or.inr (Or.inl rfl)
  · exact Or.inl rfl

lemma lexLeC_trans {a b c : List Char}
    (h1 : lexLeC a b = true) (h2 : lexLeC b c = true) : lexLeC a c = true := by
  simp only [lexLeC, Bool.not_eq_true'] at h1 h2 ⊢
  by_contra hc
  have hca : lexLtC c a = true := by
    cases h : lexLtC c a
    · exact absurd h hc
    · rfl
  rcases lexLtC_cases b c with hbc | hcb | hbc
  · have : lexLtC b a = true := lexLtC_trans b c a hbc hca
    rw [this] at h1
    simp at h1
  · rw [hcb] at h2
    simp at h2
  · subst hbc
    rw [hca] at h1
    simp at h1

lemma lexLeC_lt_trans {a b c : List Char}
    (h1 : lexLeC a b = true) (h2 : lexLtC b c = true) : lexLeC a c = true := by
  simp only [lexLeC, Bool.not_eq_true'] at h1 ⊢
  by_contra hc
  have hca : lexLtC c a = true := by
    cases h : lexLtC c a
    · exact absurd h hc
    · rfl
  have hba : lexLtC b a = true := lexLtC_trans b c a h2 hca
  rw [hba] at h1
  simp at h1

/-! ## Event store dictionaries (`seen` dicts in `parse_all_pdfs` and `main`) -/

/-- The dedup key `(e.get("Circular Date"), e.get("Product Code"))`. -/
def ekey (e : Event) : Option Nat × String := (e.circularDate, e.productCode)

/-- Association-list lookup, mirroring `key in seen` / `seen[key]` of a
Python dict (first matching entry; dict keys are unique anyway). -/
def findVal : List ((Option Nat × String) × Event) → (Option Nat × String) → Option Event
  | [], _ => none
  | (k, v) :: rest, key => if k = key then some v else findVal rest key

/-- `seen[key] = e`: replace the value in place when the key exists, append a
new entry otherwise (Python dicts preserve insertion order). -/
def setKey : List ((Option Nat × String) × Event) → (Option Nat × String) → Event →
    List ((Option Nat × String) × Event)
  | [], key, v => [(key, v)]
  | (k, w) :: rest, key, v =>
    if k = key then (k, v) :: rest else (k, w) :: setKey rest key v

lemma findVal_setKey_self :
    ∀ (s : List ((Option Nat × String) × Event)) (k : Option Nat × String) (v : Event),
      findVal (setKey s k v) k = some v
  | [], k, v => by simp [setKey, findVal]
  | (k0, w) :: rest, k, v => by
    by_cases h : k0 = k
    · simp [setKey, h, findVal]
    · simp [setKey, h, findVal, findVal_setKey_self rest k v]

lemma findVal_setKey_other :
    ∀ (s : List ((Option Nat × String) × Event)) (k k2 : Option Nat × String) (v : Event),
      k2 ≠ k → findVal (setKey s k v) k2 = findVal s k2
  | [], k, k2, v, hne => by
    simp only [setKey, findVal]
    rw [if_neg (fun h => hne h.symm)]
  | (k0, w) :: rest, k, k2, v, hne => by
    by_cases h : k0 = k
    · subst h
      simp only [setKey, if_pos rfl, findVal]
      rw [if_neg (fun h2 => hne h2.symm), if_neg (fun h2 => hne h2.symm)]
    · simp only [setKey, if_neg h, findVal]
      by_cases h2 : k0 = k2
      · simp [h2]
      · simp [h2, findVal_setKey_other rest k k2 v hne]

lemma findVal_append_right :
    ∀ (s t : List ((Option Nat × String) × Event)) (k : Option Nat × String),
      findVal s k = none → findVal (s ++ t) k = findVal t k
  | [], _, _, _ => rfl
  | (k0, w) :: rest, t, k, h => by
    by_cases h2 : k0 = k
    · rw [findVal, if_pos h2] at h
      exact absurd h (Option.some_ne_none w)
    · rw [findVal, if_neg h2] at h
      rw [List.cons_append, findVal, if_neg h2]
      exact findVal_append_right rest t k h

lemma findVal_append_left :
    ∀ (s t : List ((Option Nat × String) × Event)) (k : Option Nat × String) (v : Event),
      findVal s k = some v → findVal (s ++ t) k = some v
  | [], _, _, _, h => by simp [findVal] at h
  | (k0, w) :: rest, t, k, v, h => by
    by_cases h2 : k0 = k
    · subst h2
      rw [findVal, if_pos rfl] at h
      rw [List.cons_append, findVal, if_pos rfl]
      exact h
    · rw [findVal, if_neg h2] at h
      rw [List.cons_append, findVal, if_neg h2]
      exact findVal_append_left rest t k v h

lemma findVal_none_keys :
    ∀ (s : List ((Option Nat × String) × Event)) (k : Option Nat × String),
      findVal s k = none → ∀ kv ∈ s, kv.1 ≠ k
  | [], _, _, kv, hkv => by simp at hkv
  | (k0, w) :: rest, k, h, kv, hkv => by
    by_cases h2 : k0 = k
    · simp [findVal, h2] at h
    · simp only [findVal, if_neg h2] at h
      rcases List.mem_cons.mp hkv with rfl | hkv2
      · exact h2
      · exact findVal_none_keys rest k h kv hkv2

lemma findVal_mem :
    ∀ (s : List ((Option Nat × String) × Event)) (k : Option Nat × String) (v : Event),
      findVal s k = some v → (k, v) ∈ s
  | [], _, _, h => by simp [findVal] at h
  | (k0, w) :: rest, k, v, h => by
    by_cases h2 : k0 = k
    · subst h2
      rw [findVal, if_pos rfl] at h
      injection h with h3
      subst h3
      exact List.mem_cons_self _ _
    · rw [findVal, if_neg h2] at h
      exact List.mem_cons_of_mem _ (findVal_mem rest k v h)

lemma setKey_mem :
    ∀ (s : List ((Option Nat × String) × Event)) (k : Option Nat × String) (v : Event)
      (kv : (Option Nat × String) × Event), kv ∈ setKey s k v → kv = (k, v) ∨ kv ∈ s
  | [], k, v, kv, hkv => Or.inl (by simpa [setKey] using hkv)
  | (k0, w) :: rest, k, v, kv, hkv => by
    by_cases h : k0 = k
    · subst h
      simp only [setKey, if_pos rfl] at hkv
      rcases List.mem_cons.mp hkv with rfl | hkv2
      · exact Or.inl rfl
      · exact Or.inr (List.mem_cons_of_mem _ hkv2)
    · simp only [setKey, if_neg h] at hkv
      rcases List.mem_cons.mp hkv with rfl | hkv2
      · exact Or.inr (List.mem_cons_self _ _)
      · rcases setKey_mem rest k v kv hkv2 with h2 | h2
        · exact Or.inl h2
        · exact Or.inr (List.mem_cons_of_mem _ h2)

lemma setKey_mem_of_pairwise :
    ∀ (s : List ((Option Nat × String) × Event)) (k : Option Nat × String) (v : Event)
      (kv : (Option Nat × String) × Event),
      List.Pairwise (fun a b : (Option Nat × String) × Event => a.1 ≠ b.1) s →
      kv ∈ setKey s k v → kv = (k, v) ∨ (kv ∈ s ∧ kv.1 ≠ k)
  | [], k, v, kv, _, hkv => by
    simp only [setKey, List.mem_singleton] at hkv
    exact Or.inl hkv
  | (k0, w) :: rest, k, v, kv, hp, hkv => by
    rcases List.pairwise_cons.mp hp with ⟨hk0, hprest⟩
    by_cases h : k0 = k
    · subst h
      simp only [setKey, if_pos rfl] at hkv
      rcases List.mem_cons.mp hkv with rfl | hkv2
      · exact Or.inl rfl
      · exact Or.inr ⟨List.mem_cons_of_mem _ hkv2, Ne.symm (hk0 kv hkv2)⟩
    · simp only [setKey, if_neg h] at hkv
      rcases List.mem_cons.mp hkv with rfl | hkv2
      · exact Or.inr ⟨List.mem_cons_self _ _, h⟩
      · rcases setKey_mem_of_pairwise rest k v kv hprest hkv2 with h2 | ⟨h2, h3⟩
        · exact Or.inl h2
        · exact Or.inr ⟨List.mem_cons_of_mem _ h2, h3⟩

lemma setKey_pairwise :
    ∀ (s : List ((Option Nat × String) × Event)) (k : Option Nat × String) (v : Event),
      List.Pairwise (fun a b : (Option Nat × String) × Event => a.1 ≠ b.1) s →
      List.Pairwise (fun a b : (Option Nat × String) × Event => a.1 ≠ b.1) (setKey s k v)
  | [], k, v, _ => by simp [setKey]
  | (k0, w) :: rest, k, v, hp => by
    rcases List.pairwise_cons.mp hp with ⟨hk0, hprest⟩
    by_cases h : k0 = k
    · subst h
      simp only [setKey, if_pos rfl]
      exact List.pairwise_cons.mpr ⟨hk0, hprest⟩
    · simp only [setKey, if_neg h]
      refine List.pairwise_cons.mpr ⟨?_, setKey_pairwise rest k v hprest⟩
      intro kv hkv
      rcases setKey_mem rest k v kv hkv with rfl | h2
      · exact h
      · exact hk0 kv h2

lemma pairwise_findVal :
    ∀ (s : List ((Option Nat × String) × Event)) (k : Option Nat × String) (v : Event),
      List.Pairwise (fun a b : (Option Nat × String) × Event => a.1 ≠ b.1) s →
      (k, v) ∈ s → findVal s k = some v
  | [], _, _, _, hm => by simp at hm
  | (k0, w) :: rest, k, v, hp, hm => by
    rcases List.pairwise_cons.mp hp with ⟨hk0, hprest⟩
    rcases List.mem_cons.mp hm with heq | hm2
    · injection heq with h1 h2
      subst h1
      subst h2
      simp [findVal]
    · have hne : k0 ≠ k := by
        have := hk0 (k, v) hm2
        simpa using this
      simp only [findVal, if_neg hne]
      exact pairwise_findVal rest k v hprest hm2

/-! ## The two dedup passes (`parse_all_pdfs` 450-456, `main` 500-508) -/

/-- First component of the sort key
`(x.get("Circular Date") or date.min, x.get("Source PDF") or "")`
(`date.min.toordinal()` is 1). -/
def sortKeyD (e : Event) : Nat := e.circularDate.getD 1

/-- Ascending order on the Python sort key tuple. -/
def pevLe (a b : Event) : Prop :=
  (decide (sortKeyD a < sortKeyD b) ||
    (decide (sortKeyD a = sortKeyD b) && lexLeC a.sourcePDF.data b.sourcePDF.data)) = true

instance : DecidableRel pevLe := fun _ _ => instDecidableEqBool _ _

instance : IsTotal Event pevLe := by
  constructor
  intro a b
  by_cases h : sortKeyD a = sortKeyD b
  · rcases lexLeC_total a.sourcePDF.data b.sourcePDF.data with h2 | h2
    · left
      simp [pevLe, h, h2]
    · right
      simp [pevLe, h.symm, h2]
  · rcases Nat.lt_or_ge (sortKeyD a) (sortKeyD b) with h2 | h2
    · left
      simp [pevLe, h2]
    · right
      have : sortKeyD b < sortKeyD a := lt_of_le_of_ne h2 (fun h3 => h h3.symm)
      simp [pevLe, this]

instance : IsTrans Event pevLe := by
  constructor
  intro a b c h1 h2
  simp only [pevLe, Bool.or_eq_true, Bool.and_eq_true, decide_eq_true_eq] at h1 h2 ⊢
  rcases h1 with h1 | ⟨h1e, h1s⟩ <;> rcases h2 with h2 | ⟨h2e, h2s⟩
  · left; omega
  · left; omega
  · left; omega
  · right
    exact ⟨by omega, lexLeC_trans h1s h2s⟩

/-- Dedup in `parse_all_pdfs`: sort by `(Circular Date or date.min, Source PDF)`,
then `seen[(Circular Date, Product Code)] = e` in order, keep `seen.values()`. -/
def parse_all_dedupe (events : List Event) : List Event :=
  ((List.insertionSort pevLe events).foldl (fun seen e => setKey seen (ekey e) e) []).map
    Prod.snd

/-- One step of the combine loop in `main`:
`if key not in seen or e["Source PDF"] > seen[key]["Source PDF"]: seen[key] = e`. -/
def upsertEvent (seen : List ((Option Nat × String) × Event)) (e : Event) :
    List ((Option Nat × String) × Event) :=
  match findVal seen (ekey e) with
  | none => seen ++ [(ekey e, e)]
  | some v =>
    if lexLtC v.sourcePDF.data e.sourcePDF.data then setKey seen (ekey e) e else seen

/-- Dedup of `existing_from_excel + events` in `main`: fold `upsertEvent`
over the combined list, keep `seen.values()`. -/
def main_dedupe (combined : List Event) : List Event :=
  (combined.foldl upsertEvent []).map Prod.snd

/-- Invariant of the `main` combine loop: `seen` maps each key to an event of
the processed list whose source document is lexicographically maximal among
processed events with that key, one entry per key, every processed key present. -/
def mainInv (processed : List Event) (seen : List ((Option Nat × String) × Event)) : Prop :=
  (∀ kv ∈ seen, ekey kv.2 = kv.1) ∧
  List.Pairwise (fun a b : (Option Nat × String) × Event => a.1 ≠ b.1) seen ∧
  (∀ kv ∈ seen, kv.2 ∈ processed) ∧
  (∀ kv ∈ seen, ∀ e2 ∈ processed, ekey e2 = kv.1 →
    lexLeC e2.sourcePDF.data kv.2.sourcePDF.data = true) ∧
  (∀ e2 ∈ processed, findVal seen (ekey e2) ≠ none)

lemma mainInv_step {processed : List Event} {seen : List ((Option Nat × String) × Event)}
    (h : mainInv processed seen) (e : Event) :
    mainInv (processed ++ [e]) (upsertEvent seen e) := by
  obtain ⟨hkeys, hpw, hmem, hmax, hpres⟩ := h
  cases hf : findVal seen (ekey e) with
  | none =>
    have hnok := findVal_none_keys seen (ekey e) hf
    rw [upsertEvent, hf]
    refine ⟨?_, ?_, ?_, ?_, ?_⟩
    · intro kv hkv
      rcases List.mem_append.mp hkv with h2 | h2
      · exact hkeys kv h2
      · rw [List.mem_singleton] at h2
        subst h2
        rfl
    · apply List.pairwise_append.mpr
      refine ⟨hpw, List.pairwise_singleton _ _, ?_⟩
      intro kv hkv kv2 hkv2
      rw [List.mem_singleton] at hkv2
      subst hkv2
      exact hnok kv hkv
    · intro kv hkv
      rcases List.mem_append.mp hkv with h2 | h2
      · exact List.mem_append_left _ (hmem kv h2)
      · rw [List.mem_singleton] at h2
        subst h2
        exact List.mem_append_right _ (List.mem_singleton.mpr rfl)
    · intro kv hkv e2 he2 hke2
      rcases List.mem_append.mp hkv with h2 | h2
      · rcases List.mem_append.mp he2 with h3 | h3
        · exact hmax kv h2 e2 h3 hke2
        · rw [List.mem_singleton] at h3
          subst h3
          exact absurd hke2.symm (hnok kv h2)
      · rw [List.mem_singleton] at h2
        subst h2
        rcases List.mem_append.mp he2 with h3 | h3
        · have h4 : findVal seen (ekey e2) = none := by
            rw [show ekey e2 = ekey e from hke2]
            exact hf
          exact absurd h4 (hpres e2 h3)
        · rw [List.mem_singleton] at h3
          subst h3
          exact lexLeC_refl _
    · intro e2 he2
      rcases List.mem_append.mp he2 with h3 | h3
      · intro h4
        apply hpres e2 h3
        cases hfe2 : findVal seen (ekey e2) with
        | none => rfl
        | some v =>
          rw [findVal_append_left seen _ _ v hfe2] at h4
          exact absurd h4 (Option.some_ne_none v)
      · rw [List.mem_singleton] at h3
        subst h3
        rw [findVal_append_right seen _ _ hf]
        simp [findVal]
  | some v =>
    have hvmem : (ekey e, v) ∈ seen := findVal_mem seen (ekey e) v hf
    by_cases hlt : lexLtC v.sourcePDF.data e.sourcePDF.data = true
    · simp only [upsertEvent, hf]
      rw [if_pos hlt]
      refine ⟨?_, setKey_pairwise seen _ _ hpw, ?_, ?_, ?_⟩
      · intro kv hkv
        rcases setKey_mem seen _ _ kv hkv with rfl | h2
        · rfl
        · exact hkeys kv h2
      · intro kv hkv
        rcases setKey_mem seen _ _ kv hkv with rfl | h2
        · exact List.mem_append_right _ (List.mem_singleton.mpr rfl)
        · exact List.mem_append_left _ (hmem kv h2)
      · intro kv hkv e2 he2 hke2
        rcases setKey_mem_of_pairwise seen _ _ kv hpw hkv with rfl | ⟨h2, h3⟩
        · rcases List.mem_append.mp he2 with h4 | h4
          · have h5 := hmax (ekey e, v) hvmem e2 h4 hke2
            exact lexLeC_lt_trans h5 hlt
          · rw [List.mem_singleton] at h4
            subst h4
            exact lexLeC_refl _
        · rcases List.mem_append.mp he2 with h4 | h4
          · exact hmax kv h2 e2 h4 hke2
          · rw [List.mem_singleton] at h4
            subst h4
            exact absurd hke2.symm h3
      · intro e2 he2
        rcases List.mem_append.mp he2 with h3 | h3
        · by_cases h4 : ekey e2 = ekey e
          · rw [h4, findVal_setKey_self]
            exact Option.some_ne_none e
          · rw [findVal_setKey_other seen _ _ _ h4]
            exact hpres e2 h3
        · rw [List.mem_singleton] at h3
          subst h3
          rw [findVal_setKey_self]
          exact Option.some_ne_none e2
    · simp only [upsertEvent, hf]
      rw [if_neg hlt]
      refine ⟨hkeys, hpw, ?_, ?_, ?_⟩
      · intro kv hkv
        exact List.mem_append_left _ (hmem kv hkv)
      · intro kv hkv e2 he2 hke2
        rcases List.mem_append.mp he2 with h3 | h3
        · exact hmax kv hkv e2 h3 hke2
        · rw [List.mem_singleton] at h3
          subst h3
          have h5 : findVal seen kv.1 = some kv.2 :=
            pairwise_findVal seen kv.1 kv.2 hpw (by simpa using hkv)
          rw [← hke2] at h5
          rw [hf] at h5
          injection h5 with h6
          rw [← h6]
          apply lexLeC_of_not_lt
          cases hll : lexLtC v.sourcePDF.data e2.sourcePDF.data
          · rfl
          · exact absurd hll hlt
      · intro e2 he2
        rcases List.mem_append.mp he2 with h3 | h3
        · exact hpres e2 h3
        · rw [List.mem_singleton] at h3
          subst h3
          rw [hf]
          exact Option.some_ne_none v

lemma mainInv_fold :
    ∀ (l processed : List Event) (seen : List ((Option Nat × String) × Event)),
      mainInv processed seen → mainInv (processed ++ l) (l.foldl upsertEvent seen)
  | [], processed, seen, h => by simpa using h
  | e :: rest, processed, seen, h => by
    have h2 := mainInv_fold rest (processed ++ [e]) (upsertEvent seen e) (mainInv_step h e)
    simpa using h2

lemma mainInv_init : mainInv [] [] := by
  refine ⟨?_, List.Pairwise.nil, ?_, ?_, ?_⟩ <;> intro kv hkv <;> simp at hkv

/-! ## `lastWithKey`: the entry a last-write-wins dict keeps for a key -/

def lastWithKey : List Event → (Option Nat × String) → Option Event
  | [], _ => none
  | e :: rest, k =>
    match lastWithKey rest k with
    | some r => some r
    | none => if ekey e = k then some e else none

lemma lastWithKey_mem :
    ∀ (l : List Event) (k : Option Nat × String) (r : Event),
      lastWithKey l k = some r → r ∈ l ∧ ekey r = k
  | [], _, _, h => by simp [lastWithKey] at h
  | e :: rest, k, r, h => by
    cases h2 : lastWithKey rest k with
    | some r2 =>
      rw [lastWithKey, h2] at h
      have h3 : r2 = r := by injection h
      rw [← h3]
      have := lastWithKey_mem rest k r2 h2
      exact ⟨List.mem_cons_of_mem e this.1, this.2⟩
    | none =>
      rw [lastWithKey, h2] at h
      by_cases h3 : ekey e = k
      · rw [if_pos h3] at h
        have h4 : e = r := by injection h
        rw [← h4]
        exact ⟨List.mem_cons_self e rest, h3⟩
      · rw [if_neg h3] at h
        exact absurd h (Option.noConfusion)

lemma lastWithKey_none :
    ∀ (l : List Event) (k : Option Nat × String),
      lastWithKey l k = none → ∀ x ∈ l, ekey x ≠ k
  | [], _, _, x, hx => by simp at hx
  | e :: rest, k, h, x, hx => by
    cases h2 : lastWithKey rest k with
    | some r2 => rw [lastWithKey, h2] at h; exact absurd h (Option.noConfusion)
    | none =>
      rw [lastWithKey, h2] at h
      by_cases h3 : ekey e = k
      · rw [if_pos h3] at h
        exact absurd h (Option.noConfusion)
      · rcases List.mem_cons.mp hx with rfl | hx2
        · exact h3
        · exact lastWithKey_none rest k h2 x hx2

lemma ekey_sortKeyD {a b : Event} (h : ekey a = ekey b) : sortKeyD a = sortKeyD b := by
  simp only [ekey, Prod.mk.injEq] at h
  simp [sortKeyD, h.1]

lemma lastWithKey_max :
    ∀ (l : List Event) (k : Option Nat × String) (r : Event),
      List.Pairwise pevLe l → lastWithKey l k = some r →
      ∀ e2 ∈ l, ekey e2 = k → lexLeC e2.sourcePDF.data r.sourcePDF.data = true
  | [], _, _, _, h, _, he2, _ => by simp at he2
  | e :: rest, k, r, hp, h, e2, he2, hke2 => by
    rcases List.pairwise_cons.mp hp with ⟨hhead, hprest⟩
    cases h2 : lastWithKey rest k with
    | some r2 =>
      rw [lastWithKey, h2] at h
      have h3 : r2 = r := by injection h
      rw [← h3]
      rcases List.mem_cons.mp he2 with rfl | he3
      · have hrmem := lastWithKey_mem rest k r2 h2
        have hpev := hhead r2 hrmem.1
        have hkk : sortKeyD e2 = sortKeyD r2 := ekey_sortKeyD (hke2.trans hrmem.2.symm)
        simp only [pevLe, Bool.or_eq_true, Bool.and_eq_true, decide_eq_true_eq] at hpev
        rcases hpev with h4 | ⟨_, h4⟩
        · omega
        · exact h4
      · exact lastWithKey_max rest k r2 hprest h2 e2 he3 hke2
    | none =>
      rw [lastWithKey, h2] at h
      by_cases h3 : ekey e = k
      · rw [if_pos h3] at h
        have h4 : e = r := by injection h
        rw [← h4]
        rcases List.mem_cons.mp he2 with rfl | he3
        · exact lexLeC_refl _
        · exact absurd hke2 (lastWithKey_none rest k h2 e2 he3)
      · rw [if_neg h3] at h
        exact absurd h (Option.noConfusion)

/-- Invariant of the `parse_all_pdfs` dedup fold (unconditional last-write-wins). -/
def lastInv (processed : List Event) (seen : List ((Option Nat × String) × Event)) : Prop :=
  (∀ kv ∈ seen, ekey kv.2 = kv.1) ∧
  List.Pairwise (fun a b : (Option Nat × String) × Event => a.1 ≠ b.1) seen ∧
  (∀ kv ∈ seen, kv.2 ∈ processed) ∧
  (∀ k : Option Nat × String, findVal seen k = lastWithKey processed k)

lemma lastInv_step {processed : List Event} {seen : List ((Option Nat × String) × Event)}
    (h : lastInv processed seen) (e : Event) :
    lastInv (processed ++ [e]) (setKey seen (ekey e) e) := by
  obtain ⟨hkeys, hpw, hmem, hlook⟩ := h
  refine ⟨?_, setKey_pairwise seen _ _ hpw, ?_, ?_⟩
  · intro kv hkv
    rcases setKey_mem seen _ _ kv hkv with rfl | h2
    · rfl
    · exact hkeys kv h2
  · intro kv hkv
    rcases setKey_mem seen _ _ kv hkv with rfl | h2
    · exact List.mem_append_right _ (List.mem_singleton.mpr rfl)
    · exact List.mem_append_left _ (hmem kv h2)
  · intro k
    have hstep : ∀ (xs : List Event) (x : Event),
        lastWithKey (xs ++ [x]) k
          = (if ekey x = k then some x else lastWithKey xs k) := by
      intro xs x
      induction xs with
      | nil =>
        by_cases h2 : ekey x = k
        · simp [lastWithKey, h2]
        · simp [lastWithKey, h2]
      | cons y ys ih =>
        simp only [List.cons_append, lastWithKey, List.append_eq]
        rw [ih]
        by_cases h2 : ekey x = k
        · simp [h2]
        · simp [h2]
    rw [hstep processed e]
    by_cases h2 : ekey e = k
    · rw [if_pos h2, ← h2, findVal_setKey_self]
    · rw [if_neg h2, findVal_setKey_other seen _ _ _ (fun h3 => h2 h3.symm)]
      exact hlook k

lemma lastInv_fold :
    ∀ (l processed : List Event) (seen : List ((Option Nat × String) × Event)),
      lastInv processed seen →
      lastInv (processed ++ l) (l.foldl (fun s x => setKey s (ekey x) x) seen)
  | [], processed, seen, h => by simpa using h
  | e :: rest, processed, seen, h => by
    have h2 := lastInv_fold rest (processed ++ [e]) (setKey seen (ekey e) e)
      (lastInv_step h e)
    simpa using h2

lemma lastInv_init : lastInv [] [] := by
  refine ⟨?_, List.Pairwise.nil, ?_, ?_⟩
  · intro kv hkv; simp at hkv
  · intro kv hkv; simp at hkv
  · intro k; rfl

/-- C4: both dedup passes (the one in `parse_all_pdfs` and the one in `main`)
leave at most one event per `(Circular Date, Product Code)` key, every
retained event comes from the input, and every retained event has the
lexicographically greatest `Source PDF` among input events with its key. -/
theorem C4_dedupe_tiebreak :
    (∀ es : List Event,
        List.Pairwise (fun a b : Event => ekey a ≠ ekey b) (parse_all_dedupe es) ∧
        ∀ r ∈ parse_all_dedupe es, r ∈ es ∧
          ∀ e2 ∈ es, ekey e2 = ekey r →
            lexLeC e2.sourcePDF.data r.sourcePDF.data = true) ∧
    (∀ es : List Event,
        List.Pairwise (fun a b : Event => ekey a ≠ ekey b) (main_dedupe es) ∧
        ∀ r ∈ main_dedupe es, r ∈ es ∧
          ∀ e2 ∈ es, ekey e2 = ekey r →
            lexLeC e2.sourcePDF.data r.sourcePDF.data = true) := by
  constructor
  · intro es
    have hinv := lastInv_fold (List.insertionSort pevLe es) [] [] lastInv_init
    rw [List.nil_append] at hinv
    obtain ⟨hkeys, hpw, hmem, hlook⟩ := hinv
    constructor
    · rw [parse_all_dedupe, List.pairwise_map]
      refine List.Pairwise.imp_of_mem ?_ hpw
      intro kv1 kv2 h1 h2 hne
      rw [hkeys kv1 h1, hkeys kv2 h2]
      exact hne
    · intro r hr
      rcases List.mem_map.mp hr with ⟨kv, hkv, hkv2⟩
      have hrs : r ∈ List.insertionSort pevLe es := hkv2 ▸ hmem kv hkv
      have hres : r ∈ es := (List.mem_insertionSort pevLe).mp hrs
      refine ⟨hres, ?_⟩
      intro e2 he2 hke
      have hfv : findVal ((List.insertionSort pevLe es).foldl
          (fun s x => setKey s (ekey x) x) []) (ekey r) = some r := by
        have := pairwise_findVal _ kv.1 kv.2 hpw (by simpa using hkv)
        rw [← hkeys kv hkv, hkv2] at this
        exact this
      have hlast : lastWithKey (List.insertionSort pevLe es) (ekey r) = some r := by
        rw [← hlook]
        exact hfv
      exact lastWithKey_max _ _ r (List.sorted_insertionSort pevLe es) hlast e2
        ((List.mem_insertionSort pevLe).mpr he2) hke
  · intro es
    have hinv := mainInv_fold es [] [] mainInv_init
    rw [List.nil_append] at hinv
    obtain ⟨hkeys, hpw, hmem, hmax, _⟩ := hinv
    constructor
    · rw [main_dedupe, List.pairwise_map]
      refine List.Pairwise.imp_of_mem ?_ hpw
      intro kv1 kv2 h1 h2 hne
      rw [hkeys kv1 h1, hkeys kv2 h2]
      exact hne
    · intro r hr
      rcases List.mem_map.mp hr with ⟨kv, hkv, hkv2⟩
      refine ⟨hkv2 ▸ hmem kv hkv, ?_⟩
      intro e2 he2 hke
      have := hmax kv hkv e2 he2 (by rw [hke, ← hkv2, hkeys kv hkv])
      rw [hkv2] at this
      exact this

/-- C5: upserting the same event twice into the `main` event store leaves the
store exactly as a single upsert does, and re-processing the same circular
twice in the combine loop yields the same deduplicated store. -/
theorem C5_upsert_idempotence :
    (∀ (S : List ((Option Nat × String) × Event)) (e : Event),
        upsertEvent (upsertEvent S e) e = upsertEvent S e) ∧
    (∀ (l : List Event) (e : Event),
        main_dedupe (l ++ [e, e]) = main_dedupe (l ++ [e])) := by
  have hbase : ∀ (S : List ((Option Nat × String) × Event)) (e : Event),
      upsertEvent (upsertEvent S e) e = upsertEvent S e := by
    intro S e
    cases hf : findVal S (ekey e) with
    | none =>
      have hs1 : upsertEvent S e = S ++ [(ekey e, e)] := by
        simp only [upsertEvent, hf]
      have h2 : findVal (S ++ [(ekey e, e)]) (ekey e) = some e := by
        rw [findVal_append_right S _ _ hf]
        simp [findVal]
      have h3 : ¬ lexLtC e.sourcePDF.data e.sourcePDF.data = true := by
        simp [lexLtC_irrefl]
      rw [hs1]
      simp only [upsertEvent, h2]
      rw [if_neg h3]
    | some v =>
      by_cases hlt : lexLtC v.sourcePDF.data e.sourcePDF.data = true
      · have hs1 : upsertEvent S e = setKey S (ekey e) e := by
          simp only [upsertEvent, hf]
          rw [if_pos hlt]
        have h2 : findVal (setKey S (ekey e) e) (ekey e) = some e :=
          findVal_setKey_self S _ e
        have h3 : ¬ lexLtC e.sourcePDF.data e.sourcePDF.data = true := by
          simp [lexLtC_irrefl]
        rw [hs1]
        simp only [upsertEvent, h2]
        rw [if_neg h3]
      · have hs1 : upsertEvent S e = S := by
          simp only [upsertEvent, hf]
          rw [if_neg hlt]
        rw [hs1]
        exact hs1
  refine ⟨hbase, ?_⟩
  intro l e
  unfold main_dedupe
  rw [List.foldl_append, List.foldl_append]
  simp only [List.foldl_cons, List.foldl_nil]
  rw [hbase]

def dupEvA : Event :=
  { description := "a", productCode := "IE07", basicPrice := none,
    circularDate := some 100, circularLink := "", sourcePDF := "Ingot-1.pdf" }

def dupEvB : Event :=
  { description := "b", productCode := "IE07", basicPrice := none,
    circularDate := some 100, circularLink := "", sourcePDF := "Ingot-2.pdf" }

/-- Witness for `C4_dedupe_tiebreak`: two candidates sharing a key, the
retained one (`dupEvB`) has the lexicographically greater source name. -/
theorem C4_dedupe_tiebreak_witness :
    lexLeC dupEvA.sourcePDF.data dupEvB.sourcePDF.data = true :=
  ((C4_dedupe_tiebreak.2 [dupEvA, dupEvB]).2 dupEvB (by decide)).2 dupEvA (by decide)
    (by decide)

/-! ## Character scanning (embeddings of the regexes in the script) -/

def isWsChar (c : Char) : Bool :=
  decide (c = ' ') || decide (c = '\t') || decide (c = '\n') || decide (c = '\r') ||
  decide (c = '\x0b') || decide (c = '\x0c')

def isUpperAZ (c : Char) : Bool := decide ('A' ≤ c) && decide (c ≤ 'Z')

def isLowerAZ (c : Char) : Bool := decide ('a' ≤ c) && decide (c ≤ 'z')

def isAsciiLetter (c : Char) : Bool := isUpperAZ c || isLowerAZ c

/-- ASCII lowering, as Python `str.lower` acts on the ASCII text this script
handles. -/
def lcChar (c : Char) : Char := if isUpperAZ c then Char.ofNat (c.toNat + 32) else c

def trimChars (cs : List Char) : List Char :=
  ((cs.dropWhile isWsChar).reverse.dropWhile isWsChar).reverse

/-- Python `str.strip()`. -/
def strTrim (s : String) : String := ⟨trimChars s.data⟩

def collapseWsAux : Bool → List Char → List Char
  | _, [] => []
  | prevWs, c :: rest =>
    if isWsChar c then
      (if prevWs then collapseWsAux true rest else ' ' :: collapseWsAux true rest)
    else c :: collapseWsAux false rest

/-- Python `re.sub(r"\s+", " ", s)`. -/
def normSpaces (s : String) : String := ⟨collapseWsAux false s.data⟩

/-- Substring containment (Python `pat in text`). -/
def subChars : List Char → List Char → Bool
  | pat, [] => pat.isEmpty
  | pat, c :: rest => pat.isPrefixOf (c :: rest) || subChars pat rest

/-- Tail of the `ie\s*0?7` regex after the literal `ie`. -/
def ieTail (l : List Char) : Bool :=
  match l.dropWhile isWsChar with
  | '7' :: _ => true
  | '0' :: '7' :: _ => true
  | _ => false

def ieSearchAux : List Char → Bool
  | [] => false
  | c :: rest =>
    (decide (lcChar c = 'i') &&
      (match rest with
       | e :: tail2 => decide (lcChar e = 'e') && ieTail tail2
       | [] => false)) || ieSearchAux rest

/-- `re.search(r"ie\s*0?7", s, re.I)` as a test. -/
def ieSearch (s : String) : Bool := ieSearchAux s.data

def isPriceChar (c : Char) : Bool := c.isDigit || decide (c = ',') || decide (c = '.')

def priceTail : List Char → Nat → Bool
  | [], _ => false
  | c :: rest, n =>
    if isPriceChar c then (decide (1 ≤ n) && c.isDigit) || priceTail rest (n + 1)
    else false

def hasPriceMatchAux : List Char → Bool
  | [] => false
  | c :: rest => (c.isDigit && priceTail rest 0) || hasPriceMatchAux rest

/-- `re.search(r"\d[\d,\.]+\d", s)` as a test. -/
def hasPriceMatch (s : String) : Bool := hasPriceMatchAux s.data

def lastDigitIdx : List Char → Option Nat
  | [] => none
  | c :: rest =>
    match lastDigitIdx rest with
    | some j => some (j + 1)
    | none => if c.isDigit then some 0 else none

def priceMatchAt : List Char → Option (List Char)
  | [] => none
  | c :: rest =>
    if c.isDigit then
      match lastDigitIdx (rest.takeWhile isPriceChar) with
      | some j =>
        if 1 ≤ j then some (c :: (rest.takeWhile isPriceChar).take (j + 1)) else none
      | none => none
    else none

def findPriceAux : List Char → Option (List Char)
  | [] => none
  | c :: rest =>
    match priceMatchAt (c :: rest) with
    | some m => some m
    | none => findPriceAux rest

/-- Leftmost-greedy match of `re.search(r"(\d[\d,\.]+\d)", s)`. -/
def findPriceMatch (s : String) : Option (List Char) := findPriceAux s.data

def codeMatchAt (cs : List Char) : Option (List Char) :=
  let u := (cs.takeWhile isUpperAZ).length
  let k := min 3 u
  if k = 0 then none
  else
    match cs.drop k with
    | [] => none
    | r :: rs =>
      if r.isDigit then some (cs.take k ++ ((r :: rs).takeWhile Char.isDigit).take 4)
      else if isWsChar r then
        match rs with
        | [] => none
        | d :: _ =>
          if d.isDigit then some (cs.take k ++ r :: (rs.takeWhile Char.isDigit).take 4)
          else none
      else none

def findCodeAux : List Char → Option (List Char)
  | [] => none
  | c :: rest =>
    match codeMatchAt (c :: rest) with
    | some m => some m
    | none => findCodeAux rest

/-- Leftmost-greedy match of `re.search(r"([A-Z]{1,3}\s?\d{1,4})", s)`
(case sensitive, as in `heuristic_from_snippet`). -/
def findCode (s : String) : Option String :=
  (findCodeAux s.data).map (fun l => (⟨l⟩ : String))

def codeSearchAux : List Char → Bool
  | [] => false
  | c :: rest =>
    (isAsciiLetter c &&
      (match rest with
       | [] => false
       | d :: ds =>
         d.isDigit || (isWsChar d &&
           (match ds with
            | [] => false
            | e :: _ => e.isDigit))))
    || codeSearchAux rest

/-- `re.search(r"[A-Za-z]{1,3}\s?\d{1,4}", s)` as a test
(mixed case, as in `row_to_event`). -/
def codeSearch (s : String) : Bool := codeSearchAux s.data

def dateTailWs (cs : List Char) : Option (List Char) :=
  let ws1 := cs.takeWhile isWsChar
  if ws1.isEmpty then none
  else
    let r1 := cs.dropWhile isWsChar
    let letters := r1.takeWhile isAsciiLetter
    if letters.length < 3 then none
    else
      let r2 := r1.dropWhile isAsciiLetter
      let ws2 := r2.takeWhile isWsChar
      if ws2.isEmpty then none
      else
        let r3 := r2.dropWhile isWsChar
        let digs := r3.takeWhile Char.isDigit
        if digs.length < 4 then none
        else some (ws1 ++ letters ++ ws2 ++ digs.take 4)

def dateMatchAt : List Char → Option (List Char)
  | [] => none
  | c1 :: rest1 =>
    if c1.isDigit then
      match rest1 with
      | [] => none
      | c2 :: rest2 =>
        if c2.isDigit then (dateTailWs rest2).map (fun t => c1 :: c2 :: t)
        else (dateTailWs rest1).map (fun t => c1 :: t)
    else none

def findDateAux : List Char → Option (List Char)
  | [] => none
  | c :: rest =>
    match dateMatchAt (c :: rest) with
    | some m => some m
    | none => findDateAux rest

/-- Leftmost-greedy match of `re.search(r"(\d{1,2}\s+[A-Za-z]{3,}\s+\d{4})", s)`. -/
def findDatePat (s : String) : Option String :=
  (findDateAux s.data).map (fun l => (⟨l⟩ : String))

/-! ## Price normalization (`row_to_event` 200-224, `heuristic_from_snippet` 254-267) -/

/-- `re.sub(r"[^\d\.]", "", c)`: keep only digits and the decimal point. -/
def stripNonNumeric (s : String) : String :=
  ⟨s.data.filter (fun c => c.isDigit || decide (c = '.'))⟩

def digitsToNat (cs : List Char) : Nat := cs.foldl (fun a c => 10 * a + (c.toNat - 48)) 0

/-- Python `float(...)` restricted to the digit-and-dot strings the strip
produces: at most one dot, at least one digit, value as an exact rational. -/
def parseDecimal (s : String) : Option ℚ :=
  let cs := s.data
  if cs.all (fun c => c.isDigit || decide (c = '.')) && cs.any Char.isDigit &&
      decide ((cs.filter (fun c => decide (c = '.'))).length ≤ 1) then
    match cs.dropWhile (fun c => decide (c ≠ '.')) with
    | [] => some ((digitsToNat cs : ℕ) : ℚ)
    | _ :: fp =>
      some (((digitsToNat (cs.takeWhile (fun c => decide (c ≠ '.'))) : ℕ) : ℚ)
        + ((digitsToNat fp : ℕ) : ℚ) / ((10 : ℚ) ^ fp.length))
  else none

/-- `float(price) / 1000.0 if price else None`, inside `try`. -/
def basicOfPriceStr (p : String) : Option ℚ :=
  if p.isEmpty then none else (parseDecimal p).map (fun q => q / 1000)

/-- The per-cell price selection of `row_to_event`: the cell must match the
price regex and hold at least two digits; the raw price string is the cell
stripped to digits and dots. -/
def cellPrice (c : String) : Option String :=
  if hasPriceMatch c && decide (2 ≤ (c.data.filter Char.isDigit).length) then
    some (stripNonNumeric c)
  else none

/-- The complete raw-cell-to-price pipeline (strip, parse, divide by 1000). -/
def normalize_price (c : String) : Option ℚ := (cellPrice c).bind basicOfPriceStr

lemma hasPriceMatchAux_digit :
    ∀ cs : List Char, (∀ ch ∈ cs, ch.isDigit = false) → hasPriceMatchAux cs = false
  | [], _ => rfl
  | c :: rest, h => by
    have hc : c.isDigit = false := h c (List.mem_cons_self c rest)
    simp [hasPriceMatchAux, hc,
      hasPriceMatchAux_digit rest (fun x hx => h x (List.mem_cons_of_mem c hx))]

/-- C3 (amended): the price normalizer strips every character but digits and
the decimal point, parses the result as a decimal and divides by 1000 with no
rounding step; it yields nothing on non-numeric input; `"268,250"` normalizes
to 268.250 and `"abc"` fails. -/
theorem C3_price_normalization :
    (∀ (c : String) (q : ℚ), normalize_price c = some q →
        ∃ q0, parseDecimal (stripNonNumeric c) = some q0 ∧ q = q0 / 1000) ∧
    (∀ c : String, (∀ ch ∈ c.data, ch.isDigit = false) → normalize_price c = none) ∧
    normalize_price "268,250" = some (((268250 : ℕ) : ℚ) / 1000) ∧
    normalize_price "abc" = none := by
  refine ⟨?_, ?_, rfl, rfl⟩
  · intro c q h
    rw [normalize_price, cellPrice] at h
    by_cases hsel : (hasPriceMatch c && decide (2 ≤ (c.data.filter Char.isDigit).length)) = true
    · rw [if_pos hsel, Option.some_bind, basicOfPriceStr] at h
      by_cases hemp : (stripNonNumeric c).isEmpty = true
      · rw [if_pos hemp] at h
        exact absurd h (Option.noConfusion)
      · rw [if_neg hemp] at h
        cases hp : parseDecimal (stripNonNumeric c) with
        | none =>
          rw [hp] at h
          exact absurd h (Option.noConfusion)
        | some q0 =>
          rw [hp, Option.map_some'] at h
          injection h with h2
          exact ⟨q0, rfl, h2.symm⟩
    · rw [if_neg hsel, Option.none_bind] at h
      exact absurd h (Option.noConfusion)
  · intro c hdig
    rw [normalize_price, cellPrice]
    have hm : hasPriceMatch c = false := hasPriceMatchAux_digit c.data hdig
    rw [if_neg (by simp [hm])]
    rfl

/-- Witness for `C3_price_normalization` at the concrete raw price string. -/
theorem C3_price_normalization_witness :
    ∃ q0, parseDecimal (stripNonNumeric "268,250") = some q0 ∧
      ((268250 : ℕ) : ℚ) / 1000 = q0 / 1000 :=
  C3_price_normalization.1 "268,250" (((268250 : ℕ) : ℚ) / 1000) rfl

/-- C3 counterexample: the code performs no rounding to three decimals.  On
the raw price string `"1.5"` it yields exactly 1.5 / 1000 = 0.0015, which is
not equal to `k/1000` for any integer `k`, hence not any value rounded to
three decimal places. -/
theorem C3_rounding_counterexample :
    normalize_price "1.5"
        = some ((((1 : ℕ) : ℚ) + ((5 : ℕ) : ℚ) / ((10 : ℚ) ^ 1)) / 1000) ∧
    ¬ ∃ k : ℤ, (((1 : ℕ) : ℚ) + ((5 : ℕ) : ℚ) / ((10 : ℚ) ^ 1)) / 1000 = (k : ℚ) / 1000 := by
  constructor
  · rfl
  · rintro ⟨k, hk⟩
    have h2 : (2 * k : ℚ) = 3 := by
      push_cast at hk
      field_simp at hk
      linarith
    have h3 : (2 * k : ℤ) = 3 := by exact_mod_cast h2
    omega

/-! ## Row and snippet extraction (`row_to_event`, `heuristic_from_snippet`) -/

/-- The per-cell product code selection of `row_to_event`: a cell matching the
code pattern or the IE pattern is a candidate, and it is taken only when its
lowercase form does not contain `"ie"`. -/
def codeCellSel (c : String) : Option String :=
  if (codeSearch c || ieSearch c) && !(subChars ['i', 'e'] (c.data.map lcChar)) then some c
  else none

/-- Shallow embedding of `row_to_event` (src 172-233).  `dp` abstracts
`parse_date_from_text` (the dateutil wrapper), returning the ordinal of the
parsed date; `pdfBase` is `os.path.basename(pdf_path)`. -/
def row_to_event (dp : String → Option Nat) (row : List (Option String))
    (pdfBase : String) (clink : Option String) : Option Event :=
  let cells := row.map (fun c => strTrim (c.getD ""))
  match cells.find? (fun c => ieSearch c) with
  | none => none
  | some cIE =>
    let cdate := cells.findSome? dp
    let price := cells.findSome? cellPrice
    let code := cells.findSome? codeCellSel
    let cdateStr := match cdate with
                    | some d => isoStr d
                    | none => ""
    let combined := cells.filter (fun c =>
      !c.isEmpty && decide (c ≠ price.getD "") && decide (c ≠ code.getD "") &&
        decide (c ≠ cdateStr))
    let desc := match combined with
                | d :: _ => d
                | [] => cIE
    some { description := desc, productCode := code.getD "",
           basicPrice := price.bind basicOfPriceStr, circularDate := cdate,
           circularLink := clink.getD "", sourcePDF := pdfBase }

/-- Shallow embedding of `heuristic_from_snippet` (src 245-276). -/
def heuristic_from_snippet (dp : String → Option Nat) (snippet : String)
    (pdfBase : String) (clink : Option String) : Event :=
  let cdate := match findDatePat snippet with
               | some g => dp g
               | none => dp snippet
  let price := (findPriceMatch snippet).map
    (fun m => (⟨m.filter (fun c => c.isDigit || decide (c = '.'))⟩ : String))
  { description := normSpaces (strTrim snippet), productCode := (findCode snippet).getD "",
    basicPrice := price.bind basicOfPriceStr, circularDate := cdate,
    circularLink := clink.getD "", sourcePDF := pdfBase }

def splitOnNl : List Char → List (List Char)
  | [] => [[]]
  | c :: rest =>
    if c = '\n' then [] :: splitOnNl rest
    else
      match splitOnNl rest with
      | l :: ls => (c :: l) :: ls
      | [] => [[c]]

/-- Python `str.splitlines()` for newline-separated text. -/
def splitLinesPy (s : String) : List String :=
  let parts := splitOnNl s.data
  (match parts.getLast? with
   | some [] => parts.dropLast
   | _ => parts).map (fun l => (⟨l⟩ : String))

def joinWith (sep : Char) : List (List Char) → List Char
  | [] => []
  | [x] => x
  | x :: y :: rest => x ++ sep :: joinWith sep (y :: rest)

/-- The `" ".join(lines[max(0, i-1) : i+2])` window around a matching line. -/
def windowStr (prev : Option String) (ln : String) (next2 : Option String) : String :=
  ⟨joinWith ' ' ((match prev with | some p => [p.data] | none => []) ++ [ln.data] ++
    (match next2 with | some n2 => [n2.data] | none => []))⟩

def lineScanAux (dp : String → Option Nat) (pdfBase : String) (clink : Option String) :
    Option String → List String → Option Event
  | _, [] => none
  | prev, ln :: rest =>
    if ieSearch ln then
      some (heuristic_from_snippet dp (windowStr prev ln rest.head?) pdfBase clink)
    else lineScanAux dp pdfBase clink (some ln) rest

/-- Shallow embedding of `parse_line_around_text` (src 235-243). -/
def parse_line_around_text (dp : String → Option Nat) (text : String)
    (pdfBase : String) (clink : Option String) : Option Event :=
  lineScanAux dp pdfBase clink none (splitLinesPy text)

/-! ## `extract_ie07_from_pdf` (src 122-170) -/

/-- A PDF page as `pdfplumber` presents it to the script: the extracted
tables (cells may be `None`) and the extracted text (the script substitutes
the empty string when `extract_text()` yields nothing). -/
structure Page where
  tables : List (List (List (Option String)))
  text : String

structure PdfDoc where
  pages : List Page

def rowTextLC (row : List (Option String)) : List Char :=
  (joinWith ' ' (((row.filterMap id).filter (fun s => !s.isEmpty)).map String.data)).map lcChar

/-- The row filter in the table scan:
`"ie07" in row_text.replace(" ", "") or "ie 07" in row_text`. -/
def rowMatchCond (row : List (Option String)) : Bool :=
  subChars ['i', 'e', '0', '7'] ((rowTextLC row).filter (fun c => decide (c ≠ ' '))) ||
  subChars ['i', 'e', ' ', '0', '7'] (rowTextLC row)

def scanTable (dp : String → Option Nat) (pdfBase : String) (clink : Option String)
    (table : List (List (Option String))) : Option Event :=
  table.findSome? (fun row =>
    if !row.isEmpty && rowMatchCond row then row_to_event dp row pdfBase clink else none)

/-- The table heuristic of one page: first row of any table that matches and
parses. -/
def scanPageTables (dp : String → Option Nat) (pdfBase : String) (clink : Option String)
    (pg : Page) : Option Event :=
  pg.tables.findSome? (scanTable dp pdfBase clink)

/-- The page text precondition:
`"ie07" in text.replace(" ", "").lower() or "ie 07" in text.lower()`. -/
def pageTextCond (t : String) : Bool :=
  subChars ['i', 'e', '0', '7'] ((t.data.filter (fun c => decide (c ≠ ' '))).map lcChar) ||
  subChars ['i', 'e', ' ', '0', '7'] (t.data.map lcChar)

/-- The text-line heuristic of one page. -/
def scanPageText (dp : String → Option Nat) (pdfBase : String) (clink : Option String)
    (pg : Page) : Option Event :=
  if pageTextCond pg.text then parse_line_around_text dp pg.text pdfBase clink else none

/-- A match of `IE\s*0?7` (case-insensitive) at the head of the list, with its
length. -/
def ieMatchLen (cs : List Char) : Option Nat :=
  match cs with
  | c1 :: c2 :: rest =>
    if decide (lcChar c1 = 'i') && decide (lcChar c2 = 'e') then
      let w := (rest.takeWhile isWsChar).length
      match rest.drop w with
      | '0' :: '7' :: _ => some (2 + w + 2)
      | '7' :: _ => some (2 + w + 1)
      | _ => none
    else none
  | _ => none

def attemptAt (cs : List Char) (k : Nat) : Option (List Char) :=
  match ieMatchLen (cs.drop k) with
  | some L =>
    some (cs.take (k + L) ++
      ((cs.drop (k + L)).takeWhile (fun c => decide (c ≠ '\n'))).take 200)
  | none => none

def tryKs (cs : List Char) : Nat → Option (List Char)
  | 0 => attemptAt cs 0
  | k + 1 =>
    match attemptAt cs (k + 1) with
    | some r => some r
    | none => tryKs cs k

def docSnippetAux : List Char → Option (List Char)
  | [] => none
  | c :: rest =>
    match tryKs (c :: rest)
        (min 200 (((c :: rest).takeWhile (fun x => decide (x ≠ '\n'))).length)) with
    | some r => some r
    | none => docSnippetAux rest

/-- Leftmost-then-greedy match of
`re.search(r".{0,200}(IE\s*0?7).{0,200}", whole, re.I)`: up to 200 same-line
characters of context before and after the first reachable `IE\s*0?7` token. -/
def docSnippet (s : String) : Option String :=
  (docSnippetAux s.data).map (fun l => (⟨l⟩ : String))

/-- `"\n".join(p.extract_text() or "" for p in pdf.pages)`. -/
def wholeText (doc : PdfDoc) : String :=
  ⟨joinWith '\n' (doc.pages.map (fun p => p.text.data))⟩

/-- The page loop of `extract_ie07_from_pdf`: per page, tables first, then the
text-line heuristic of the same page, before moving to the next page. -/
def pagesLoop (dp : String → Option Nat) (pdfBase : String) (clink : Option String) :
    List Page → Option Event
  | [] => none
  | pg :: rest =>
    match scanPageTables dp pdfBase clink pg with
    | some e => some e
    | none =>
      match scanPageText dp pdfBase clink pg with
      | some e => some e
      | none => pagesLoop dp pdfBase clink rest

/-- Shallow embedding of `extract_ie07_from_pdf` (src 122-170). -/
def extract_ie07_from_pdf (dp : String → Option Nat) (doc : PdfDoc)
    (pdfBase : String) (clink : Option String) : Option Event :=
  match pagesLoop dp pdfBase clink doc.pages with
  | some e => some e
  | none =>
    (docSnippet (wholeText doc)).map (fun sn => heuristic_from_snippet dp sn pdfBase clink)

/-- C9 (amended): the heuristics run per page in page order, tables of a page
before that page's text lines; the first success wins and no later heuristic
overrides it; the whole-document snippet heuristic runs only when no page
yielded a match. -/
theorem C9_heuristic_priority :
    ∀ (dp : String → Option Nat) (pdfBase : String) (clink : Option String) (doc : PdfDoc),
      extract_ie07_from_pdf dp doc pdfBase clink
        = (doc.pages.findSome? (fun pg =>
            (scanPageTables dp pdfBase clink pg).or (scanPageText dp pdfBase clink pg))).or
          ((docSnippet (wholeText doc)).map
            (fun sn => heuristic_from_snippet dp sn pdfBase clink)) := by
  intro dp pdfBase clink doc
  have hps : ∀ ps : List Page, pagesLoop dp pdfBase clink ps
      = ps.findSome? (fun pg =>
          (scanPageTables dp pdfBase clink pg).or (scanPageText dp pdfBase clink pg)) := by
    intro ps
    induction ps with
    | nil => rfl
    | cons pg rest ih =>
      rw [pagesLoop, List.findSome?_cons]
      cases h1 : scanPageTables dp pdfBase clink pg with
      | some e => rfl
      | none =>
        cases h2 : scanPageText dp pdfBase clink pg with
        | some e => rfl
        | none => simpa [Option.or] using ih
  rw [extract_ie07_from_pdf, hps]
  cases doc.pages.findSome? (fun pg =>
      (scanPageTables dp pdfBase clink pg).or (scanPageText dp pdfBase clink pg)) with
  | some e => rfl
  | none => rfl

def dpNone : String → Option Nat := fun _ => none

def cexPage1 : Page := { tables := [], text := "ALUMINIUM INGOT IE07 270100" }

def cexPage2 : Page :=
  { tables := [[[some "ALUMINIUM INGOT", some "IE07", some "268250"]]], text := "" }

def cexDoc : PdfDoc := { pages := [cexPage1, cexPage2] }

/-- C9 counterexample: page 2 holds a table whose IE07 row parses, yet the
extraction result is the page-1 text-line event, because the text heuristic of
page 1 runs before the table heuristic of page 2. -/
theorem C9_heuristic_priority_counterexample :
    (extract_ie07_from_pdf dpNone cexDoc "a.pdf" none).map Event.description
        = some "ALUMINIUM INGOT IE07 270100" ∧
    (scanPageTables dpNone "a.pdf" none cexPage2).map Event.description
        = some "ALUMINIUM INGOT" ∧
    ("ALUMINIUM INGOT IE07 270100" : String) ≠ "ALUMINIUM INGOT" :=
  ⟨rfl, rfl, by decide⟩

/-- C8 (amended): when no product-code cell is resolved, the Product Code of
an extracted event defaults to the empty string, not to `"IE07"` (both in the
table-row path and in the snippet path). -/
theorem C8_product_code_default :
    (∀ (dp : String → Option Nat) (row : List (Option String)) (pdfBase : String)
        (clink : Option String) (ev : Event),
        row_to_event dp row pdfBase clink = some ev →
        (row.map (fun c => strTrim (c.getD ""))).findSome? codeCellSel = none →
        ev.productCode = "") ∧
    (∀ (dp : String → Option Nat) (snippet pdfBase : String) (clink : Option String),
        findCode snippet = none →
        (heuristic_from_snippet dp snippet pdfBase clink).productCode = "") := by
  constructor
  · intro dp row pdfBase clink ev hev hnone
    simp only [row_to_event] at hev
    cases hf : (row.map (fun c => strTrim (c.getD ""))).find? (fun c => ieSearch c) with
    | none =>
      rw [hf] at hev
      exact absurd hev (Option.noConfusion)
    | some cIE =>
      rw [hf, hnone] at hev
      injection hev with h2
      rw [← h2]
      rfl
  · intro dp snippet pdfBase clink hnone
    show (findCode snippet).getD "" = ""
    rw [hnone]
    rfl

def cexRow : List (Option String) := [some "ALUMINIUM INGOT", some "IE07", some "268250"]

/-- C8 counterexample: a realistic IE07 table row in which no cell qualifies
as a product-code cell yields Product Code `""`, not `"IE07"`. -/
theorem C8_product_code_default_counterexample :
    (row_to_event dpNone cexRow "x.pdf" none).map Event.productCode = some "" ∧
    ("" : String) ≠ "IE07" :=
  ⟨rfl, by decide⟩

/-- Witness for `C8_product_code_default` at the concrete row. -/
theorem C8_product_code_default_witness :
    ({ description := "ALUMINIUM INGOT", productCode := "",
       basicPrice := some (((268250 : ℕ) : ℚ) / 1000), circularDate := none,
       circularLink := "", sourcePDF := "x.pdf" } : Event).productCode = "" :=
  C8_product_code_default.1 dpNone cexRow "x.pdf" none _ rfl rfl

/-! ## Circular Date Resolver (spec §4.3) -/

/-- Modelled from the spec: the filename rule of the Circular Date Resolver is
absent from src/nalco_scraper.py (this variant derives circular dates from
in-document text via `parse_date_from_text`); the strict
`Ingot-DD-MM-YYYY.pdf` pattern is taken from the spec's words. -/
def matchIngotFilename (s : String) : Option (Nat × Nat × Nat) :=
  match s.data with
  | 'I' :: 'n' :: 'g' :: 'o' :: 't' :: '-' :: d1 :: d2 :: '-' :: m1 :: m2 :: '-' ::
      y1 :: y2 :: y3 :: y4 :: '.' :: 'p' :: 'd' :: 'f' :: [] =>
    if d1.isDigit && d2.isDigit && m1.isDigit && m2.isDigit &&
        y1.isDigit && y2.isDigit && y3.isDigit && y4.isDigit then
      some (digitsToNat [d1, d2], digitsToNat [m1, m2], digitsToNat [y1, y2, y3, y4])
    else none
  | _ => none

/-- Day and month range validation (day 31 in a 30-day month is invalid). -/
def validDMY (d m y : Nat) : Bool :=
  decide (1 ≤ m) && decide (m ≤ 12) && decide (1 ≤ d) && decide (d ≤ daysInMonth y m)

/-- Modelled from the spec: resolve the effective circular date from the
filename when it matches the strict pattern and is a valid calendar date,
otherwise fall back to the current date `today`. -/
def resolve_circular_date (filename : String) (today : Nat) : Nat :=
  match matchIngotFilename filename with
  | some (d, m, y) => if validDMY d m y then dateOrdinal y m d else today
  | none => today

/-- C6: a filename matching the strict `Ingot-DD-MM-YYYY.pdf` pattern with a
valid day/month combination resolves to that calendar date; an invalid
combination is rejected, and any non-matching filename falls back to the
current date at resolution time. -/
theorem C6_filename_date_resolver :
    ∀ (filename : String) (today d m y : Nat),
      (matchIngotFilename filename = some (d, m, y) →
        (validDMY d m y = true → resolve_circular_date filename today = dateOrdinal y m d) ∧
        (validDMY d m y = false → resolve_circular_date filename today = today)) ∧
      (matchIngotFilename filename = none → resolve_circular_date filename today = today) := by
  intro filename today d m y
  constructor
  · intro hm
    constructor
    · intro hv
      rw [resolve_circular_date, hm]
      simp [hv]
    · intro hv
      rw [resolve_circular_date, hm]
      simp [hv]
  · intro hm
    rw [resolve_circular_date, hm]

/-- Witness for `C6_filename_date_resolver`: a valid filename resolves to its
date, day 31 in April is rejected, a non-matching filename falls back. -/
theorem C6_filename_date_resolver_witness :
    resolve_circular_date "Ingot-07-08-2025.pdf" 999 = dateOrdinal 2025 8 7 ∧
    resolve_circular_date "Ingot-31-04-2025.pdf" 999 = 999 ∧
    resolve_circular_date "something.pdf" 999 = 999 :=
  ⟨((C6_filename_date_resolver "Ingot-07-08-2025.pdf" 999 7 8 2025).1 (by decide)).1
      (by decide),
   ((C6_filename_date_resolver "Ingot-31-04-2025.pdf" 999 31 4 2025).1 (by decide)).2
      (by decide),
   (C6_filename_date_resolver "something.pdf" 999 0 0 0).2 (by decide)⟩
